import Mathlib

/-!
Verification development for the m3u8-proxy-script repository.

The repository is an HTTP rewriting proxy for HLS playlists.  Its core is a
set of pure text transformations: a URL resolver (`resolveUrl`, `getBaseUrl`),
a media-playlist rewriter (`processMediaPlaylist`), a master-playlist resolver
with a recursion bound (`processM3u8Url`), a structural playlist parser
(`parseM3U8Structure`), and a statistical ad-segment classifier
(`calculateSegmentStats`, `analyzeSegments`, `applyFilterDecision`).

All text is modelled as `List Char`, mirroring JavaScript strings.  JavaScript
numbers are modelled as exact rationals extended with the IEEE special values
`NaN` and the two infinities (`JSNum`); rational arithmetic is exact where
IEEE doubles may round, and every concrete input used in the theorems below is
chosen so that the JavaScript double computation is exact and agrees with the
model.  The platform primitives `new URL` and
`encodeURIComponent` / `decodeURIComponent` are modelled for the well-formed
http(s) URLs and ASCII escapes that the claims exercise.
-/

namespace M3U8Filter

/-- Convert a string literal to the character-list representation used for all
text in this development. -/
def chars (s : String) : List Char :=
  s.toList

/-- Whitespace characters recognised by JavaScript string trimming (the ASCII
subset that can occur in playlist text). -/
def isJsWs (c : Char) : Bool :=
  c = ' ' || c = '\t' || c = '\n' || c = '\r' || c = '\x0b' || c = '\x0c'

/-- Model of JavaScript string trim: drop whitespace from both ends. -/
def jsTrim (l : List Char) : List Char :=
  ((l.dropWhile isJsWs).reverse.dropWhile isJsWs).reverse

/-- Model of JavaScript string split on a single-character separator. -/
def splitChar (sep : Char) : List Char → List (List Char)
  | [] => [[]]
  | c :: cs =>
    match splitChar sep cs with
    | [] => [[]]
    | h :: t => if c = sep then [] :: h :: t else (c :: h) :: t

/-- Model of JavaScript array join with a single-character separator. -/
def joinChar (sep : Char) : List (List Char) → List Char
  | [] => []
  | [l] => l
  | l :: ls => l ++ sep :: joinChar sep ls

/-- Model of JavaScript substring containment (the `includes` method). -/
def containsSub (pat : List Char) : List Char → Bool
  | [] => pat.isEmpty
  | c :: cs => pat.isPrefixOf (c :: cs) || containsSub pat cs

/-- Case-insensitive character-list prefix test, used to model the
case-insensitive regular expression that recognises absolute http(s) URLs. -/
def ciStarts : List Char → List Char → Bool
  | [], _ => true
  | _ :: _, [] => false
  | p :: ps, c :: cs => (p.toLower = c.toLower) && ciStarts ps cs

/-- Model of the test `relativeUrl.match(/^https?:\/\//i)` from `resolveUrl`
in src/deno.ts: the reference already carries an absolute http(s) scheme,
matched case-insensitively. -/
def matchesHttpAbs (l : List Char) : Bool :=
  ciStarts (chars ("http://")) l || ciStarts (chars ("https://")) l

/-- Addition on `ℚ` computed through `mkRat`, so that concrete values reduce
inside the kernel (the library's rational operations are sealed against
unfolding); it agrees with the library addition. -/
def qAdd (a b : ℚ) : ℚ :=
  mkRat (a.num * b.den + b.num * a.den) (a.den * b.den)

/-- Subtraction on `ℚ` computed through `mkRat`. -/
def qSub (a b : ℚ) : ℚ :=
  mkRat (a.num * b.den - b.num * a.den) (a.den * b.den)

/-- Multiplication on `ℚ` computed through `mkRat`. -/
def qMul (a b : ℚ) : ℚ :=
  mkRat (a.num * b.num) (a.den * b.den)

/-- Reciprocal on `ℚ` computed through `mkRat` (`qInv 0 = 0`). -/
def qInv (a : ℚ) : ℚ :=
  if a.num < 0 then mkRat (-(a.den : ℤ)) a.num.natAbs
  else mkRat (a.den : ℤ) a.num.natAbs

/-- Division on `ℚ` computed through `mkRat` (division by a nonzero value;
the classifier guards zero denominators at the `JSNum` level). -/
def qDivQ (a b : ℚ) : ℚ :=
  qMul a (qInv b)

/-- Model of a JavaScript number for the arithmetic of the ad classifier:
exact rationals plus `NaN` and the two infinities.  Division is total and
produces the IEEE special values exactly as JavaScript does. -/
inductive JSNum where
  | nan : JSNum
  | posInf : JSNum
  | negInf : JSNum
  | num : ℚ → JSNum
deriving DecidableEq, Repr

/-- Negation of a JavaScript number. -/
def jsNeg : JSNum → JSNum
  | .nan => .nan
  | .posInf => .negInf
  | .negInf => .posInf
  | .num a => .num (mkRat (-a.num) a.den)

/-- Addition of JavaScript numbers (`NaN` propagates, opposite infinities
give `NaN`). -/
def jsAdd : JSNum → JSNum → JSNum
  | .nan, _ => .nan
  | _, .nan => .nan
  | .posInf, .negInf => .nan
  | .negInf, .posInf => .nan
  | .posInf, _ => .posInf
  | _, .posInf => .posInf
  | .negInf, _ => .negInf
  | _, .negInf => .negInf
  | .num a, .num b => .num (qAdd a b)

/-- Subtraction of JavaScript numbers. -/
def jsSub (a b : JSNum) : JSNum :=
  jsAdd a (jsNeg b)

/-- Multiplication of JavaScript numbers (`0 * Infinity = NaN` as in IEEE). -/
def jsMul : JSNum → JSNum → JSNum
  | .nan, _ => .nan
  | _, .nan => .nan
  | .num a, .num b => .num (qMul a b)
  | .num a, .posInf => if 0 < a then .posInf else if a < 0 then .negInf else .nan
  | .num a, .negInf => if 0 < a then .negInf else if a < 0 then .posInf else .nan
  | .posInf, .num b => if 0 < b then .posInf else if b < 0 then .negInf else .nan
  | .negInf, .num b => if 0 < b then .negInf else if b < 0 then .posInf else .nan
  | .posInf, .posInf => .posInf
  | .posInf, .negInf => .negInf
  | .negInf, .posInf => .negInf
  | .negInf, .negInf => .posInf

/-- Division of JavaScript numbers: `0/0 = NaN`, `x/0 = ±Infinity` for
nonzero finite `x`, finite divided by infinite is `0`. -/
def jsDiv : JSNum → JSNum → JSNum
  | .nan, _ => .nan
  | _, .nan => .nan
  | .num a, .num b =>
    if b = 0 then (if a = 0 then .nan else if 0 < a then .posInf else .negInf)
    else .num (qDivQ a b)
  | .posInf, .num b => if b < 0 then .negInf else .posInf
  | .negInf, .num b => if b < 0 then .posInf else .negInf
  | .num _, .posInf => .num 0
  | .num _, .negInf => .num 0
  | _, _ => .nan

/-- Strict order on JavaScript numbers; any comparison with `NaN` is false. -/
def jsLt : JSNum → JSNum → Bool
  | .nan, _ => false
  | _, .nan => false
  | .negInf, .negInf => false
  | .negInf, _ => true
  | _, .negInf => false
  | .posInf, _ => false
  | _, .posInf => true
  | .num a, .num b => decide (a < b)

/-- The `>` comparison of JavaScript numbers. -/
def jsGt (a b : JSNum) : Bool :=
  jsLt b a

/-- Model of `Math.min` on two arguments (`NaN` propagates). -/
def jsMin : JSNum → JSNum → JSNum
  | .nan, _ => .nan
  | _, .nan => .nan
  | a, b => if jsLt b a then b else a

/-- Model of `Math.max` on two arguments (`NaN` propagates). -/
def jsMax : JSNum → JSNum → JSNum
  | .nan, _ => .nan
  | _, .nan => .nan
  | a, b => if jsLt a b then b else a

/-- Absolute value on `ℚ` computed on the numerator. -/
def qAbs (a : ℚ) : ℚ :=
  if a.num < 0 then mkRat (-a.num) a.den else a

/-- Model of `Math.abs`. -/
def jsAbs : JSNum → JSNum
  | .nan => .nan
  | .posInf => .posInf
  | .negInf => .posInf
  | .num a => .num (qAbs a)

/-- Characters admitted in the host component of the simplified URL model. -/
def isHostChar (c : Char) : Bool :=
  !isJsWs c && c ≠ '/' && c ≠ '#' && c ≠ '?' && c ≠ '"' && c ≠ '\\'

/-- Characters admitted in the path component of the simplified URL model. -/
def isPathChar (c : Char) : Bool :=
  !isJsWs c && c ≠ '#' && c ≠ '?' && c ≠ '"' && c ≠ '\\'

/-- Parsed form of a well-formed absolute http(s) URL: scheme flag, host
(with optional port) and path beginning with a slash. -/
structure Url where
  secure : Bool
  host : List Char
  path : List Char
deriving DecidableEq, Repr

/-- The origin of a parsed URL, scheme normalised to lower case as the
platform URL class does. -/
def urlOrigin (u : Url) : List Char :=
  (if u.secure then chars ("https://") else chars ("http://")) ++ u.host

/-- Model of constructing `new URL(s)` for the simple absolute http(s) URLs
(no query, no fragment, no embedded whitespace) that the claims exercise;
other inputs are treated as unparsable, which sends callers in the source to
their documented string-slicing fallbacks. -/
def parseUrl (s : List Char) : Option Url :=
  let core? : Option (Bool × List Char) :=
    if ciStarts (chars ("https://")) s then some (true, s.drop 8)
    else if ciStarts (chars ("http://")) s then some (false, s.drop 7)
    else none
  match core? with
  | none => none
  | some (sec, rest) =>
    let host := rest.takeWhile (fun c => c ≠ '/')
    let path0 := rest.dropWhile (fun c => c ≠ '/')
    let path := if path0.isEmpty then [ '/' ] else path0
    if host.isEmpty then none
    else if host.all isHostChar && path.all isPathChar then some ⟨sec, host, path⟩
    else none

/-- The directory of a path: the source computes it as
`pathname.split('/')` with the last entry popped, rejoined with `/` and a
trailing slash appended (`getBaseUrl` in src/deno.ts). -/
def dirOfPath (path : List Char) : List Char :=
  joinChar '/' (splitChar '/' path).dropLast ++ [ '/' ]

/-- Model of `url.lastIndexOf(c)`: the greatest index holding `c`, or `-1`. -/
def lastIndexOfChar (c : Char) (l : List Char) : Int :=
  match l.reverse.findIdx? (fun x => x = c) with
  | none => -1
  | some j => (l.length : Int) - 1 - j

/-- Embedding of `getBaseUrl` (src/deno.ts lines 318-330): origin plus the
directory of the path; on an unparsable URL fall back to slicing at the last
slash when its index exceeds 8. -/
def getBaseUrl (url : List Char) : List Char :=
  match parseUrl url with
  | some u => urlOrigin u ++ dirOfPath u.path
  | none =>
    let i := lastIndexOfChar '/' url
    if 8 < i then url.take (i + 1).toNat else url

/-- Embedding of `resolveUrl` (src/deno.ts lines 335-351): an absolute
http(s) reference is returned unchanged; otherwise the reference is resolved
against the base with the platform URL constructor, modelled here by the
standard relative-resolution rules for simple references; if the base cannot
be parsed, the non-rooted fallback concatenates base and reference. -/
def resolveUrl (baseUrl relativeUrl : List Char) : List Char :=
  if matchesHttpAbs relativeUrl then relativeUrl
  else
    match parseUrl baseUrl with
    | some b =>
      if relativeUrl.head? = some '/' then urlOrigin b ++ relativeUrl
      else urlOrigin b ++ dirOfPath b.path ++ relativeUrl
    | none => baseUrl ++ relativeUrl

/-- Characters left unescaped by `encodeURIComponent`. -/
def isUnreservedChar (c : Char) : Bool :=
  c.isAlphanum || c = '-' || c = '_' || c = '.' || c = '!' || c = '~' || c = '*' ||
    c = (Char.ofNat 39) || c = '(' || c = ')'

/-- Upper-case hexadecimal digit for a value below 16. -/
def hexDigit (n : ℕ) : Char :=
  if n < 10 then Char.ofNat (48 + n) else Char.ofNat (55 + n)

/-- Percent-escape of one byte, as emitted by `encodeURIComponent`. -/
def byteHex (b : ℕ) : List Char :=
  [ '%', hexDigit (b / 16), hexDigit (b % 16) ]

/-- Model of `encodeURIComponent`: unreserved characters pass through, every
other character is UTF-8 encoded and percent-escaped byte by byte. -/
def encodeUriComp (l : List Char) : List Char :=
  (l.map (fun c =>
    if isUnreservedChar c then [c]
    else ((String.utf8EncodeChar c).map (fun b => byteHex b.toNat)).flatten)).flatten

/-- Value of one hexadecimal digit character. -/
def hexVal (c : Char) : Option ℕ :=
  if '0' ≤ c ∧ c ≤ '9' then some (c.toNat - 48)
  else if 'A' ≤ c ∧ c ≤ 'F' then some (c.toNat - 55)
  else if 'a' ≤ c ∧ c ≤ 'f' then some (c.toNat - 87)
  else none

/-- Model of `decodeURIComponent` for the ASCII escapes the claims exercise:
`%XX` with a single-byte ASCII value decodes to that character, a malformed
or multi-byte escape is a decoding failure (JavaScript throws `URIError`). -/
def percentDecode : List Char → Option (List Char)
  | [] => some []
  | '%' :: c1 :: c2 :: rest =>
    match hexVal c1, hexVal c2 with
    | some hi, some lo =>
      let b := 16 * hi + lo
      if b < 128 then (percentDecode rest).map (fun r => Char.ofNat b :: r) else none
    | _, _ => none
  | '%' :: _ => none
  | c :: rest => (percentDecode rest).map (fun r => c :: r)

/-- Per-request configuration snapshot: the fields of the source `CONFIG`
constant consumed by the rewriting core.  The source reads a module-level
constant; the embedding passes the same data explicitly. -/
structure Config where
  proxyTs : List Char
  proxyTsEncode : Bool
  filterDiscontinuity : Bool
  maxRecursion : ℕ
deriving Repr

/-- Embedding of `proxyTsUrl` (src/deno.ts lines 271-277): an empty segment
proxy is passthrough, otherwise the proxy base is prepended to the encoded or
raw URL. -/
def proxyTsUrl (cfg : Config) (url : List Char) : List Char :=
  if cfg.proxyTs.isEmpty then url
  else if cfg.proxyTsEncode then cfg.proxyTs ++ encodeUriComp url
  else cfg.proxyTs ++ url

/-- Attempted match of the pattern `URI="<at least one non-quote>"` at the
head of the input; on success returns the captured URI and the text after the
closing quote. -/
def matchUriAt (l : List Char) : Option (List Char × List Char) :=
  if (chars ("URI=\"")).isPrefixOf l then
    let after := l.drop 5
    let cap := after.takeWhile (fun c => c ≠ '"')
    match cap, after.dropWhile (fun c => c ≠ '"') with
    | _ :: _, _ :: rest2 => some (cap, rest2)
    | _, _ => none
  else none

/-- First match of the regular expression `URI="([^"]+)"` in a line: the text
before the match, the captured group and the text after the match. -/
def uriAttrSplit : List Char → Option (List Char × List Char × List Char)
  | [] => none
  | c :: cs =>
    match matchUriAt (c :: cs) with
    | some (cap, rest) => some ([], cap, rest)
    | none =>
      match uriAttrSplit cs with
      | some (pre, cap, rest) => some (c :: pre, cap, rest)
      | none => none

/-- Model of `line.replace(/URI="([^"]+)"/, ...)`: substitute the first
captured URI, leaving a line without a match unchanged. -/
def replaceUriAttr (line : List Char) (f : List Char → List Char) : List Char :=
  match uriAttrSplit line with
  | none => line
  | some (pre, cap, rest) => pre ++ chars ("URI=\"") ++ f cap ++ [ '"' ] ++ rest

/-- Embedding of `processKeyLine` (src/deno.ts lines 251-256): resolve and
proxy-wrap the URI attribute of an encryption-key tag line. -/
def processKeyLine (cfg : Config) (baseUrl line : List Char) : List Char :=
  replaceUriAttr line (fun uri => proxyTsUrl cfg (resolveUrl baseUrl uri))

/-- Embedding of `processMapLine` (src/deno.ts lines 261-266): same URI
substitution for an initialization-segment tag line. -/
def processMapLine (cfg : Config) (baseUrl line : List Char) : List Char :=
  replaceUriAttr line (fun uri => proxyTsUrl cfg (resolveUrl baseUrl uri))

/-- The discontinuity tag line. -/
def discTag : List Char :=
  chars ("#EXT-X-DISCONTINUITY")

/-- The encryption-key tag. -/
def keyTag : List Char :=
  chars ("#EXT-X-KEY")

/-- The initialization-segment tag. -/
def mapTag : List Char :=
  chars ("#EXT-X-MAP")

/-- The duration tag as tested by the rewriter (`#EXTINF`, no colon). -/
def extinfTagRw : List Char :=
  chars ("#EXTINF")

/-- The comment marker. -/
def hashTag : List Char :=
  chars ("#")

/-- Embedding of the line loop of `processMediaPlaylist` (src/deno.ts lines
196-246), carrying the `isNextLineSegment` flag: empty lines are dropped,
discontinuity tags are dropped when the filter is enabled, key and map lines
get their URI attribute rewritten, a duration tag arms the flag, and an armed
non-comment line is resolved and proxy-wrapped. -/
def rewriteLines (cfg : Config) (baseUrl : List Char) :
    List (List Char) → Bool → List (List Char)
  | [], _ => []
  | l :: ls, flag =>
    let line := jsTrim l
    if line.isEmpty then rewriteLines cfg baseUrl ls flag
    else if cfg.filterDiscontinuity ∧ line = discTag then rewriteLines cfg baseUrl ls flag
    else if keyTag.isPrefixOf line then
      processKeyLine cfg baseUrl line :: rewriteLines cfg baseUrl ls flag
    else if mapTag.isPrefixOf line then
      processMapLine cfg baseUrl line :: rewriteLines cfg baseUrl ls flag
    else if extinfTagRw.isPrefixOf line then
      line :: rewriteLines cfg baseUrl ls true
    else if flag ∧ ¬ hashTag.isPrefixOf line then
      proxyTsUrl cfg (resolveUrl baseUrl line) :: rewriteLines cfg baseUrl ls false
    else
      line :: rewriteLines cfg baseUrl ls flag

/-- Embedding of `processMediaPlaylist` (src/deno.ts lines 196-246): split
into lines, rewrite, join back with newlines. -/
def processMediaPlaylist (cfg : Config) (url content : List Char) : List Char :=
  joinChar '\n' (rewriteLines cfg (getBaseUrl url) (splitChar '\n' content) false)

/-- The variant-stream declaration tag. -/
def streamInfTag : List Char :=
  chars ("#EXT-X-STREAM-INF")

/-- The playlist magic marker. -/
def extm3uTag : List Char :=
  chars ("#EXTM3U")

/-- First non-blank, non-comment line (trimmed), as scanned by the inner
variant-selection loop of `processMasterPlaylist`. -/
def firstUriLine : List (List Char) → Option (List Char)
  | [] => none
  | l :: ls =>
    let t := jsTrim l
    if ¬ t.isEmpty ∧ ¬ hashTag.isPrefixOf t then some t else firstUriLine ls

/-- Embedding of the variant-selection scan of `processMasterPlaylist`
(src/deno.ts lines 170-182): for the first variant-stream tag line, the first
following non-blank non-comment line is the variant reference; if no
reference follows it, the scan continues from the next variant-stream tag. -/
def findVariantRef : List (List Char) → Option (List Char)
  | [] => none
  | l :: ls =>
    if streamInfTag.isPrefixOf l then
      match firstUriLine ls with
      | some v => some v
      | none => findVariantRef ls
    else findVariantRef ls

/-- Typed processing failures of the orchestrator (each corresponds to a
`throw new Error(...)` in src/deno.ts). -/
inductive ProcErr where
  | recursionExceeded : ProcErr
  | invalidContent : ProcErr
  | noVariantFound : ProcErr
  | fetchFailed : ProcErr
deriving DecidableEq, Repr

/-- The variant URL selected from a master playlist body, resolved against
the master's base directory. -/
def masterVariantUrl (url content : List Char) : Option (List Char) :=
  (findVariantRef (splitChar '\n' content)).map (fun v => resolveUrl (getBaseUrl url) v)

/-- Embedding of `processM3u8Url` together with `processMasterPlaylist`
(src/deno.ts lines 138-191).  The fetch collaborator is an oracle
`fetchFn`.  Recursion is realised with explicit fuel; the depth guard
`recursionDepth > MAX_RECURSION` from the source is checked first, exactly as
in the code, so the fuel exit (also a recursion failure) is unreachable from
the top entry, where the fuel strictly exceeds the depth budget. -/
def processM3u8UrlGo (cfg : Config) (fetchFn : List Char → Option (List Char)) :
    ℕ → ℕ → List Char → Except ProcErr (List Char)
  | fuel, depth, url =>
    if cfg.maxRecursion < depth then .error .recursionExceeded
    else
      match fuel with
      | 0 => .error .recursionExceeded
      | fuel' + 1 =>
        match fetchFn url with
        | none => .error .fetchFailed
        | some content =>
          if ¬ containsSub extm3uTag content then .error .invalidContent
          else if containsSub streamInfTag content then
            match masterVariantUrl url content with
            | none => .error .noVariantFound
            | some variantUrl => processM3u8UrlGo cfg fetchFn fuel' (depth + 1) variantUrl
          else .ok (processMediaPlaylist cfg url content)

/-- Top-level entry `processM3u8Url(url)` with the default depth 0: the fuel
`maxRecursion + 2` strictly dominates the number of depth increments possible
before the source's own depth guard fires. -/
def processM3u8Url (cfg : Config) (fetchFn : List Char → Option (List Char))
    (url : List Char) : Except ProcErr (List Char) :=
  processM3u8UrlGo cfg fetchFn (cfg.maxRecursion + 2) 0 url

/-- Segment record as consumed and produced by the ad classifier
(src/unnamed/part_003).  Durations are exact rationals; the classifier's
scores live in `JSNum` because the source arithmetic can produce `NaN`.
The parser-only fields (`startLine`, `url`, `content`) are not needed by the
classifier claims and live in the separate parser record `PSeg`. -/
structure Seg where
  index : ℕ
  duration : ℚ
  hasDiscontinuity : Bool
  hasMap : Bool
  isAd : Bool
  adScore : JSNum
deriving DecidableEq, Repr

/-- Durations of a segment list. -/
def segDurations (segs : List Seg) : List ℚ :=
  segs.map (fun s => s.duration)

/-- Total duration (`reduce` sum in `calculateSegmentStats`). -/
def totalDurationOf (segs : List Seg) : ℚ :=
  (segDurations segs).foldl qAdd 0

/-- Mean duration. -/
def meanDuration (segs : List Seg) : ℚ :=
  qDivQ (totalDurationOf segs) (segs.length : ℚ)

/-- Population variance of the durations (the quantity whose square root the
source takes for `stdDev`). -/
def varianceDuration (segs : List Seg) : ℚ :=
  qDivQ
    (((segDurations segs).map
      (fun d => qMul (qSub d (meanDuration segs)) (qSub d (meanDuration segs)))).foldl qAdd 0)
    (segs.length : ℚ)

/-- Insertion of a value into an ascending list. -/
def insertAsc (a : ℚ) : List ℚ → List ℚ
  | [] => [a]
  | b :: bs => if a ≤ b then a :: b :: bs else b :: insertAsc a bs

/-- Ascending sort by insertion.  The source sorts with the comparator
`(a, b) => a - b`; since tied elements are equal rational values, every
ascending sort produces the same list, so insertion sort is a faithful
model of the engine's stable sort. -/
def sortAsc (l : List ℚ) : List ℚ :=
  l.foldr insertAsc []

/-- Durations sorted ascending (`sort((a, b) => a - b)`). -/
def sortedDurations (segs : List Seg) : List ℚ :=
  sortAsc (segDurations segs)

/-- The 10th-percentile duration: element `floor(n * 0.1)` of the sorted
array. -/
def p10Duration (segs : List Seg) : ℚ :=
  (sortedDurations segs).getD (segs.length / 10) 0

/-- The 90th-percentile duration: element `floor(n * 0.9)` of the sorted
array. -/
def p90Duration (segs : List Seg) : ℚ :=
  (sortedDurations segs).getD (9 * segs.length / 10) 0

/-- Statistics record produced by `calculateSegmentStats`
(src/unnamed/part_003 lines 249-272). -/
structure SegStats where
  avgDuration : ℚ
  stdDev : ℚ
  p10 : ℚ
  p90 : ℚ
  totalDuration : ℚ
  segmentCount : ℕ
deriving DecidableEq, Repr

/-- Characterisation of the statistics computed by `calculateSegmentStats` on
a non-empty segment list.  `Math.sqrt` returns an irrational number for most
variances, so the standard deviation is characterised exactly (non-negative
square root of the population variance) instead of being recomputed; every
other field is the exact value the source computes. -/
def IsStatsOf (segs : List Seg) (st : SegStats) : Prop :=
  segs ≠ [] ∧
  st.avgDuration = meanDuration segs ∧
  0 ≤ st.stdDev ∧ qMul st.stdDev st.stdDev = varianceDuration segs ∧
  st.p10 = p10Duration segs ∧
  st.p90 = p90Duration segs ∧
  st.totalDuration = totalDurationOf segs ∧
  st.segmentCount = segs.length

/-- Position-abnormality signal of `analyzeSegments` (src/unnamed/part_003
lines 287-293): `0.8` for one of the first three segments with a duration
below the 10th percentile, `0.5` when the index exceeds `length - 3` with a
duration below the 10th percentile, `0` otherwise. -/
def positionFactor (index n : ℕ) (duration p10 : ℚ) : ℚ :=
  if index < 3 ∧ duration < p10 then mkRat 4 5
  else if (n : ℤ) - 3 < (index : ℤ) ∧ duration < p10 then mkRat 1 2
  else 0

/-- Per-segment scoring step of `analyzeSegments` (src/unnamed/part_003 lines
277-312): z-score from the deviation and standard deviation (JavaScript
division, so `0/0` is `NaN`), the three weighted signals, the clamped
`adScore` and the fixed `0.65` detection threshold. -/
def analyzeSegment (n : ℕ) (st : SegStats) (s : Seg) : Seg :=
  let deviation : ℚ := qAbs (qSub s.duration st.avgDuration)
  let zScore : JSNum := jsDiv (.num deviation) (.num st.stdDev)
  let durationAbnormality : JSNum := jsMin (.num 1) (jsDiv zScore (.num 3))
  let pf : ℚ := positionFactor s.index n s.duration st.p10
  let df : ℚ := if s.hasDiscontinuity then mkRat 3 10 else 0
  let adScore : JSNum :=
    jsMin (.num 1)
      (jsAdd
        (jsAdd (jsMul durationAbnormality (.num (mkRat 3 5)))
          (jsMul (.num pf) (.num (mkRat 3 10))))
        (jsMul (.num df) (.num (mkRat 1 10))))
  { s with adScore := adScore, isAd := jsGt adScore (.num (mkRat 13 20)) }

/-- Embedding of `analyzeSegments` (src/unnamed/part_003 lines 277-312). -/
def analyzeSegments (segs : List Seg) (st : SegStats) : List Seg :=
  segs.map (analyzeSegment segs.length st)

/-- Dynamic removal threshold of `applyFilterDecision` (src/unnamed/part_003
lines 320-324): `min(0.8, max(0.5, 0.65 - (stdDev / avgDuration) * 0.2))`
in JavaScript arithmetic. -/
def dynamicThreshold (st : SegStats) : JSNum :=
  jsMin (.num (mkRat 4 5))
    (jsMax (.num (mkRat 1 2))
      (jsSub (.num (mkRat 13 20))
        (jsMul (jsDiv (.num st.stdDev) (.num st.avgDuration)) (.num (mkRat 1 5)))))

/-- Per-segment keep test of `applyFilterDecision` (src/unnamed/part_003
lines 326-344), with the source's branch order: the ad-score rule, then the
short-segment rule, then the map-retention branch, then the default. -/
def keepSegment (th : JSNum) (s : Seg) : Bool :=
  if s.isAd ∧ jsGt s.adScore th then false
  else if s.duration < 1 ∧ 3 < s.index then false
  else if s.hasMap then true
  else true

/-- Embedding of `applyFilterDecision` (src/unnamed/part_003 lines 317-345). -/
def applyFilterDecision (segs : List Seg) (st : SegStats) : List Seg :=
  segs.filter (keepSegment (dynamicThreshold st))

/-- Segment record built by the structural parser `parseM3U8Structure`
(src/unnamed/part_003 lines 213-237).  `duration` is the `parseFloat` of the
captured digit-and-dot run, `none` standing for `NaN`. -/
structure PSeg where
  index : ℕ
  startLine : ℕ
  endLine : ℕ
  duration : Option ℚ
  url : List Char
  hasDiscontinuity : Bool
  hasMap : Bool
  content : List Char
deriving DecidableEq, Repr

/-- Result of the structural parser: segments plus the primary and auxiliary
header lines. -/
structure ParsedPlaylist where
  segments : List PSeg
  headersMain : List (List Char)
  headersOther : List (List Char)
deriving DecidableEq, Repr

/-- The `#EXT` prefix of the primary-header window test. -/
def extTag : List Char :=
  chars ("#EXT")

/-- The map tag with colon, as tested by the structural parser. -/
def mapTagColon : List Char :=
  chars ("#EXT-X-MAP:")

/-- The duration tag with colon, as tested by the structural parser. -/
def extinfTagColon : List Char :=
  chars ("#EXTINF:")

/-- Digit-or-dot character class of the duration regular expression. -/
def isNumDotChar (c : Char) : Bool :=
  c.isDigit || c = '.'

/-- First match of the regular expression `#EXTINF:([\d.]+)` in a line: scan
left to right for an occurrence of `#EXTINF:` immediately followed by at
least one digit-or-dot character and return the maximal such run. -/
def extinfCapture : List Char → Option (List Char)
  | [] => none
  | c :: cs =>
    if extinfTagColon.isPrefixOf (c :: cs) then
      match ((c :: cs).drop 8).takeWhile isNumDotChar with
      | [] => extinfCapture cs
      | d :: ds => some (d :: ds)
    else extinfCapture cs

/-- Numeric value of a digit run. -/
def digitsToNat (l : List Char) : ℕ :=
  l.foldl (fun acc c => 10 * acc + (c.toNat - 48)) 0

/-- Model of `parseFloat` on a digit-and-dot string: longest valid numeric
prefix (digits, optional dot, digits); a string with no leading digits and no
digit after an initial dot parses to `NaN` (`none`). -/
def parseJsFloat (l : List Char) : Option ℚ :=
  let intPart := l.takeWhile Char.isDigit
  match l.dropWhile Char.isDigit with
  | '.' :: rest2 =>
    let fracPart := rest2.takeWhile Char.isDigit
    if intPart.isEmpty ∧ fracPart.isEmpty then none
    else some (qAdd (mkRat (digitsToNat intPart) 1)
      (mkRat (digitsToNat fracPart) (10 ^ fracPart.length)))
  | _ => if intPart.isEmpty then none else some (mkRat (digitsToNat intPart) 1)

/-- Construction of one parsed segment record: the `content` field is the
raw span rebuilt from the pending map line (when present), the duration tag
line and the raw successor line, joined with newlines, exactly as the source
builds it. -/
def mkPSeg (i idx : ℕ) (disc : Bool) (mapLine : Option (List Char))
    (cap line next : List Char) : PSeg :=
  { index := idx, startLine := i, endLine := i + 1,
    duration := parseJsFloat cap, url := jsTrim next,
    hasDiscontinuity := disc, hasMap := mapLine.isSome,
    content :=
      match mapLine with
      | some m => m ++ '\n' :: (line ++ '\n' :: next)
      | none => line ++ '\n' :: next }

/-- Line loop of `parseM3U8Structure` (src/unnamed/part_003 lines 181-244),
carried state: fuel (strictly larger than the remaining iteration count at
every reachable call), absolute line index `i`, pending-discontinuity flag,
pending map line, running segment index.  The first ten lines starting with `#EXT`
are captured as primary headers; a duration tag line whose regular expression
matches and whose raw successor line is non-empty and not a comment emits a
segment and consumes that successor; any other `#`-line is an auxiliary
header. -/
def parseLoop : ℕ → ℕ → List (List Char) → Bool → Option (List Char) → ℕ → ParsedPlaylist
  | _, _, [], _, _, _ => ⟨[], [], []⟩
  | 0, _, _ :: _, _, _, _ => ⟨[], [], []⟩
  | fuel + 1, i, l :: rest, disc, mapLine, idx =>
    let line := jsTrim l
    if i < 10 ∧ extTag.isPrefixOf line then
      let p := parseLoop fuel (i + 1) rest disc mapLine idx
      { p with headersMain := line :: p.headersMain }
    else if mapTagColon.isPrefixOf line then
      parseLoop fuel (i + 1) rest disc (some line) idx
    else if containsSub discTag line then
      parseLoop fuel (i + 1) rest true mapLine idx
    else if extinfTagColon.isPrefixOf line then
      match extinfCapture line, rest with
      | some cap, next :: rest2 =>
        if ¬ next.isEmpty ∧ ¬ hashTag.isPrefixOf next then
          let p := parseLoop fuel (i + 2) rest2 false none (idx + 1)
          { p with segments := mkPSeg i idx disc mapLine cap line next :: p.segments }
        else parseLoop fuel (i + 1) (next :: rest2) disc mapLine idx
      | some _, [] => parseLoop fuel (i + 1) [] disc mapLine idx
      | none, r => parseLoop fuel (i + 1) r disc mapLine idx
    else if hashTag.isPrefixOf line then
      let p := parseLoop fuel (i + 1) rest disc mapLine idx
      { p with headersOther := line :: p.headersOther }
    else parseLoop fuel (i + 1) rest disc mapLine idx

/-- Embedding of `parseM3U8Structure` (src/unnamed/part_003 lines 181-244).
The loop is structurally recursive on a fuel argument; one fuel unit is spent
per loop iteration and every iteration consumes at least one line, so a fuel
equal to the number of lines never runs out (`parseLoop_fuel_irrelevant`
below makes this exact). -/
def parseM3U8Structure (content : List Char) : ParsedPlaylist :=
  parseLoop (splitChar '\n' content).length 0 (splitChar '\n' content) false none 0

/-- Request URL as consumed by `getTargetUrl`: the decoded search parameters
(in order) and the pathname.  Query-string parsing itself is done by the
platform URL class and is outside the modelled core. -/
structure ReqUrl where
  params : List (List Char × List Char)
  pathname : List Char
deriving DecidableEq, Repr

/-- The query-parameter key consulted by `getTargetUrl`. -/
def urlKey : List Char :=
  chars ("url")

/-- Model of `url.searchParams.has('url')`. -/
def hasUrlParam (u : ReqUrl) : Bool :=
  u.params.any (fun p => p.1 == urlKey)

/-- Model of `url.searchParams.get('url')`: first value for the key. -/
def getUrlParam (u : ReqUrl) : Option (List Char) :=
  (u.params.find? (fun p => p.1 == urlKey)).map (fun p => p.2)

/-- The path-form marker. -/
def m3u8filterPathTag : List Char :=
  chars ("/m3u8filter/")

/-- Model of `pathname.match(/^\/m3u8filter\/(.+)/)`: after the literal
marker, the greedy group captures the maximal run of non-newline characters
and must be non-empty. -/
def pathCapture (p : List Char) : Option (List Char) :=
  if m3u8filterPathTag.isPrefixOf p then
    match (p.drop 12).takeWhile (fun c => c ≠ '\n') with
    | [] => none
    | d :: ds => some (d :: ds)
  else none

/-- Embedding of `getTargetUrl` (src/deno.ts lines 97-110, identical in
src/unnamed/part_003 lines 465-478): the `url` query parameter wins when
present; otherwise the path form, percent-decoded (a decoding failure throws,
modelled as `Except.error`); otherwise `null`. -/
def getTargetUrl (u : ReqUrl) : Except Unit (Option (List Char)) :=
  if hasUrlParam u then .ok (getUrlParam u)
  else
    match pathCapture u.pathname with
    | some cap =>
      match percentDecode cap with
      | some d => .ok (some d)
      | none => .error ()
    | none => .ok none

/-- Outcome of the request-handler guard around `getTargetUrl`. -/
inductive ReqOutcome where
  | badRequest : ReqOutcome
  | proceed : List Char → ReqOutcome
  | thrown : ReqOutcome
deriving DecidableEq, Repr

/-- Embedding of the guard in `handleRequest` (src/deno.ts lines 53-61):
a `null` or empty target produces the HTTP 400 usage response, a decoding
exception propagates to the catch-all (HTTP 500), otherwise processing
proceeds with the extracted target. -/
def handleGuard (u : ReqUrl) : ReqOutcome :=
  match getTargetUrl u with
  | .error _ => .thrown
  | .ok none => .badRequest
  | .ok (some t) => if t.isEmpty then .badRequest else .proceed t

/-- Decidability of the statistics characterisation, used to evaluate it on
concrete inputs. -/
instance (segs : List Seg) (st : SegStats) : Decidable (IsStatsOf segs st) := by
  unfold IsStatsOf
  infer_instance

/-- Five analysed segments for the decision-phase counterexample: four
segments of duration 2 and a final half-second segment at index 4 carrying a
map association. -/
def c1Raw : List Seg :=
  [⟨0, 2, false, false, false, .num 0⟩,
   ⟨1, 2, false, false, false, .num 0⟩,
   ⟨2, 2, false, false, false, .num 0⟩,
   ⟨3, 2, false, false, false, .num 0⟩,
   ⟨4, mkRat 1 2, false, true, false, .num 0⟩]

/-- Exact statistics of `c1Raw`: mean `17/10`, standard deviation `3/5`
(the variance `9/25` is a perfect rational square, so the JavaScript double
computation is exact here). -/
def c1Stats : SegStats :=
  ⟨mkRat 17 10, mkRat 3 5, mkRat 1 2, 2, mkRat 17 2, 5⟩

/-- The analysed form of the final segment of `c1Raw`: ad score `2/5`, not
classified as an ad. -/
def c1Seg4 : Seg :=
  ⟨4, mkRat 1 2, false, true, false, .num (mkRat 2 5)⟩

/-- Three segments of equal duration 10 (statistics computation is exact in
IEEE doubles for these values). -/
def c2Segs : List Seg :=
  [⟨0, 10, false, false, false, .num 0⟩,
   ⟨1, 10, false, false, false, .num 0⟩,
   ⟨2, 10, false, false, false, .num 0⟩]

/-- Exact statistics of `c2Segs`: mean 10, standard deviation 0. -/
def c2Stats : SegStats :=
  ⟨10, 0, 10, 10, 30, 3⟩

/-- Ten segments, all of duration 10 except a one-second segment at index 7
(the third-from-last position). -/
def c4Segs : List Seg :=
  [⟨0, 10, false, false, false, .num 0⟩,
   ⟨1, 10, false, false, false, .num 0⟩,
   ⟨2, 10, false, false, false, .num 0⟩,
   ⟨3, 10, false, false, false, .num 0⟩,
   ⟨4, 10, false, false, false, .num 0⟩,
   ⟨5, 10, false, false, false, .num 0⟩,
   ⟨6, 10, false, false, false, .num 0⟩,
   ⟨7, 1, false, false, false, .num 0⟩,
   ⟨8, 10, false, false, false, .num 0⟩,
   ⟨9, 10, false, false, false, .num 0⟩]

/-- Exact statistics of `c4Segs`: mean `91/10`, standard deviation `27/10`
(variance `729/100` is a perfect rational square), 10th percentile 10. -/
def c4Stats : SegStats :=
  ⟨mkRat 91 10, mkRat 27 10, 10, 10, 91, 10⟩

/-- Request with both the query parameter and a path form. -/
def c10ReqBoth : ReqUrl :=
  ⟨[(chars ("url"), chars ("https://a/b.m3u8"))], chars ("/m3u8filter/https%3A%2F%2Fc%2Fd")⟩

/-- Request with only the path form. -/
def c10ReqPath : ReqUrl :=
  ⟨[], chars ("/m3u8filter/https%3A%2F%2Fc%2Fd.m3u8")⟩

/-- Request with neither source of a target URL. -/
def c10ReqNone : ReqUrl :=
  ⟨[], chars ("/other")⟩

/-- Configuration with recursion bound 2 for the recursion-bound witness. -/
def c7Cfg : Config :=
  ⟨[], false, true, 2⟩

/-- A master playlist whose variant reference is another playlist. -/
def c7Master : List Char :=
  chars ("#EXTM3U\n#EXT-X-STREAM-INF:BANDWIDTH=1280000\nvariant.m3u8")

/-- Fetch oracle that always returns the master playlist, producing an
unbounded master chain. -/
def c7Fetch : List Char → Option (List Char) :=
  fun _ => some c7Master

/-- Parsed form of the spec's example base URL. -/
def c6Base : Url :=
  ⟨true, chars ("cdn.example.com"), chars ("/live/stream/index.m3u8")⟩

/-- A playlist with a malformed duration tag (followed by a comment) at line
10 and a well-formed one at line 12. -/
def c8Content : List Char :=
  chars ("#EXTM3U\n#H1\n#H2\n#H3\n#H4\n#H5\n#H6\n#H7\n#H8\n#H9\n#EXTINF:4,\n#COMMENT\n#EXTINF:5,\nseg.ts")

/-- A playlist whose line 2 is a duration tag inside the header window,
followed by a URI line. -/
def c9Content : List Char :=
  chars ("#EXTM3U\n#EXT-X-VERSION:3\n#EXTINF:9,\nearly.ts\n#EXT-X-ENDLIST")

/-- The shipped configuration of the second src/deno.ts variant: segment
proxy `https://y.demo.lhyang.org/` without URL-encoding, discontinuity
filtering on, recursion bound 50. -/
def c3Cfg : Config :=
  ⟨chars ("https://y.demo.lhyang.org/"), false, true, 50⟩

/-- The same configuration with the segment proxy left empty. -/
def c3CfgNoProxy : Config :=
  ⟨[], false, true, 50⟩

/-- A media playlist URL. -/
def c3Url : List Char :=
  chars ("https://cdn.example.com/live/index.m3u8")

/-- A three-line media playlist with one segment. -/
def c3Content : List Char :=
  chars ("#EXTM3U\n#EXTINF:10.0,\nseg1.ts")

/-- The trimmed non-empty lines of a line list: exactly the lines on which
the rewriter loop acts. -/
def cleanLines (ls : List (List Char)) : List (List Char) :=
  (ls.map jsTrim).filter (fun l => !l.isEmpty)

/-- Well-shaped playlist line lists: every duration tag is followed
immediately by a non-comment URI line, and every other line is a tag or
comment. -/
def goodShape : List (List Char) → Bool
  | [] => true
  | [l] => !extinfTagRw.isPrefixOf l && hashTag.isPrefixOf l
  | l :: u :: rest =>
    if extinfTagRw.isPrefixOf l then !hashTag.isPrefixOf u && goodShape rest
    else hashTag.isPrefixOf l && goodShape (u :: rest)

/-- The segment URIs of a well-shaped playlist: the line after each duration
tag, in order. -/
def segmentUris : List (List Char) → List (List Char)
  | [] => []
  | [_] => []
  | l :: u :: rest =>
    if extinfTagRw.isPrefixOf l then u :: segmentUris rest
    else segmentUris (u :: rest)

/-- A segment-proxy configuration with discontinuity filtering off, as the
claim requires, and the proxy base of the second src/deno.ts variant. -/
def c5Cfg : Config :=
  ⟨chars ("https://y.demo.lhyang.org/"), false, false, 50⟩

/-- A media playlist URL for the segment-count witness. -/
def c5Url : List Char :=
  chars ("https://cdn.example.com/live/index.m3u8")

/-- A playlist with two duration-tagged URI-followed segments amid tags. -/
def c5Content : List Char :=
  chars ("#EXTM3U\n#EXT-X-VERSION:3\n#EXTINF:10.0,\nseg1.ts\n#EXTINF:9.5,\nseg2.ts\n#EXT-X-ENDLIST")

/-- Claim C1, counterexample.  The final segment of `c1Raw` carries a map
association and has duration under one second at index 4, is not an ad and
does not exceed the dynamic threshold — so by the claim it must be retained —
yet the decision phase removes it: the map-retention branch of the source is
tested only after the short-segment removal rule has already fired. -/
theorem c1_counterexample :
    IsStatsOf c1Raw c1Stats ∧
    analyzeSegments c1Raw c1Stats =
      [⟨0, 2, false, false, false, .num (mkRat 1 10)⟩,
       ⟨1, 2, false, false, false, .num (mkRat 1 10)⟩,
       ⟨2, 2, false, false, false, .num (mkRat 1 10)⟩,
       ⟨3, 2, false, false, false, .num (mkRat 1 10)⟩, c1Seg4] ∧
    c1Seg4.hasMap = true ∧ c1Seg4.duration < 1 ∧ c1Seg4.isAd = false ∧
    jsGt c1Seg4.adScore (dynamicThreshold c1Stats) = false ∧
    c1Seg4 ∉ applyFilterDecision (analyzeSegments c1Raw c1Stats) c1Stats := by
  refine ⟨by decide, by decide, by decide, by decide, by decide, by decide, ?_⟩
  decide

/-- Claim C1 as amended: a segment is removed by the decision phase if and
only if (`isAd` and its score exceeds the dynamic threshold) or (duration
under one second and index strictly greater than 3); the map-association
branch comes after both removal rules and never rescues a segment. -/
theorem c1_filter_decision (segs : List Seg) (st : SegStats) :
    applyFilterDecision segs st =
      segs.filter (fun s =>
        !((s.isAd && jsGt s.adScore (dynamicThreshold st)) ||
          (decide (s.duration < 1) && decide (3 < s.index)))) := by
  unfold applyFilterDecision
  refine List.filter_congr ?_
  intro s _
  unfold keepSegment
  cases hIsAd : s.isAd <;> cases hGt : jsGt s.adScore (dynamicThreshold st) <;>
    by_cases hd : s.duration < 1 <;> by_cases hi : 3 < s.index <;>
      cases hm : s.hasMap <;>
        simp [hIsAd, hGt, hd, hi, hm]

/-- Claim C2, evaluation at the failing input.  For three segments of equal
duration 10 the standard deviation is 0 and the classifier computes
`zScore = 0 / 0`, which is `NaN` in JavaScript, so every `adScore` is `NaN`
rather than the `0` the specification's policy requires: the source has no
guard for the zero-deviation division. -/
theorem c2_zscore_nan :
    segDurations c2Segs = [10, 10, 10] ∧
    IsStatsOf c2Segs c2Stats ∧
    jsDiv (.num 0) (.num 0) = JSNum.nan ∧
    (analyzeSegments c2Segs c2Stats).map (fun s => s.adScore) =
      [JSNum.nan, JSNum.nan, JSNum.nan] ∧
    (analyzeSegments c2Segs c2Stats).map (fun s => s.isAd) =
      [false, false, false] := by
  refine ⟨by decide, by decide, by decide, ?_, ?_⟩ <;> decide

/-- Claim C4, counterexample.  In the ten-segment list `c4Segs` the segment
at index 7 is among the last three and its duration 1 is below the 10th
percentile, so the claim assigns it position-abnormality `0.5`; the source
condition is `index > length - 3`, which index 7 fails, so the code assigns
`0`. -/
theorem c4_counterexample :
    segDurations c4Segs = [10, 10, 10, 10, 10, 10, 10, 1, 10, 10] ∧
    c4Segs.length = 10 ∧
    IsStatsOf c4Segs c4Stats ∧
    c4Stats.p10 = 10 ∧
    c4Segs.length - 3 ≤ 7 ∧
    (1 : ℚ) < c4Stats.p10 ∧
    positionFactor 7 c4Segs.length 1 c4Stats.p10 ≠ mkRat 1 2 ∧
    positionFactor 7 c4Segs.length 1 c4Stats.p10 = 0 := by
  refine ⟨by decide, by decide, by decide, by decide, by decide, by decide, ?_, ?_⟩ <;>
    decide

/-- Claim C4 as amended: the position-abnormality signal is `0.8` exactly for
one of the first three segments with duration below the 10th percentile;
`0.5` exactly when the index strictly exceeds `n - 3` (only the last two
index positions) with duration below the 10th percentile and the first case
does not apply; and `0` otherwise. -/
theorem c4_position_abnormality (index n : ℕ) (duration p10 : ℚ) :
    (positionFactor index n duration p10 = mkRat 4 5 ↔ (index < 3 ∧ duration < p10)) ∧
    (positionFactor index n duration p10 = mkRat 1 2 ↔
      (¬ (index < 3 ∧ duration < p10) ∧ (n : ℤ) - 3 < (index : ℤ) ∧ duration < p10)) ∧
    (positionFactor index n duration p10 = 0 ↔
      (¬ (index < 3 ∧ duration < p10) ∧
        ¬ ((n : ℤ) - 3 < (index : ℤ) ∧ duration < p10))) := by
  unfold positionFactor
  split_ifs with h1 h2 <;>
    refine ⟨?_, ?_, ?_⟩ <;> constructor <;> intro h <;>
      first | tauto | exact absurd h (by decide)

/-- Claim C10.  Target-URL extraction returns the `url` query parameter
whenever it is present (regardless of the pathname); uses the percent-decoded
path form only when the parameter is absent; and yields `null` — hence the
HTTP 400 usage response — when neither is present. -/
theorem c10_target_url :
    (∀ u : ReqUrl, hasUrlParam u = true →
      getTargetUrl u = .ok (getUrlParam u) ∧ (getUrlParam u).isSome = true) ∧
    (∀ (u : ReqUrl) (cap d : List Char), hasUrlParam u = false →
      pathCapture u.pathname = some cap → percentDecode cap = some d →
      getTargetUrl u = .ok (some d)) ∧
    (∀ u : ReqUrl, hasUrlParam u = false → pathCapture u.pathname = none →
      getTargetUrl u = .ok none ∧ handleGuard u = .badRequest) := by
  refine ⟨?_, ?_, ?_⟩
  · intro u h
    refine ⟨by simp [getTargetUrl, h], ?_⟩
    have hx : ∃ x ∈ u.params, (x.1 == urlKey) = true := by
      simpa [hasUrlParam, List.any_eq_true] using h
    obtain ⟨x, hxmem, hxkey⟩ := hx
    cases hfind : List.find? (fun p => p.1 == urlKey) u.params with
    | none => exact absurd hxkey (by simpa using List.find?_eq_none.mp hfind x hxmem)
    | some y => simp [getUrlParam, hfind]
  · intro u cap d h hcap hdec
    simp [getTargetUrl, h, hcap, hdec]
  · intro u h hcap
    have hg : getTargetUrl u = .ok none := by simp [getTargetUrl, h, hcap]
    exact ⟨hg, by simp [handleGuard, hg]⟩

/-- Witness for claim C10 at concrete requests: the query parameter wins over
a simultaneously present path form, the path form decodes when alone, and the
absence of both produces `null` and the 400 outcome. -/
theorem c10_target_url_witness :
    getTargetUrl c10ReqBoth = .ok (getUrlParam c10ReqBoth) ∧
    getTargetUrl c10ReqPath = .ok (some (chars ("https://c/d.m3u8"))) ∧
    getTargetUrl c10ReqNone = .ok none ∧ handleGuard c10ReqNone = .badRequest := by
  refine ⟨(c10_target_url.1 c10ReqBoth (by decide)).1, ?_, ?_, ?_⟩
  · exact c10_target_url.2.1 c10ReqPath
      (chars ("https%3A%2F%2Fc%2Fd.m3u8")) (chars ("https://c/d.m3u8"))
      (by decide) (by decide) (by decide)
  · exact (c10_target_url.2.2 c10ReqNone (by decide) (by decide)).1
  · exact (c10_target_url.2.2 c10ReqNone (by decide) (by decide)).2

/-- Claim C7.  A chain of master playlists (every fetch yields valid playlist
content that contains a variant-stream tag with a selectable variant) drives
the resolver into its depth guard: the top-level entry fails with the
recursion-exceeded error, and any invocation whose depth already exceeds
`MAX_RECURSION` fails immediately without recursing further.  Termination
itself is structural in the embedding, so an infinite loop is impossible, and
the failure is an `error`, never a truncated `ok` result. -/
theorem c7_recursion_bound (cfg : Config) (fetchFn : List Char → Option (List Char))
    (hchain : ∀ u, ∃ c, fetchFn u = some c ∧ containsSub extm3uTag c = true ∧
      containsSub streamInfTag c = true ∧ (masterVariantUrl u c).isSome = true) :
    (∀ url, processM3u8Url cfg fetchFn url = .error .recursionExceeded) ∧
    (∀ fuel depth url, cfg.maxRecursion < depth →
      processM3u8UrlGo cfg fetchFn fuel depth url = .error .recursionExceeded) := by
  have hgo : ∀ fuel depth url,
      processM3u8UrlGo cfg fetchFn fuel depth url = .error .recursionExceeded := by
    intro fuel
    induction fuel with
    | zero =>
      intro depth url
      rw [processM3u8UrlGo]
      split <;> rfl
    | succ f ih =>
      intro depth url
      rw [processM3u8UrlGo]
      by_cases hd : cfg.maxRecursion < depth
      · rw [if_pos hd]
      · rw [if_neg hd]
        obtain ⟨c, hc, h1, h2, h3⟩ := hchain url
        obtain ⟨v, hv⟩ := Option.isSome_iff_exists.mp h3
        simp only [hc, h1, h2, hv]
        simpa using ih (depth + 1) v
  exact ⟨fun url => hgo _ 0 url, fun fuel depth url _ => hgo fuel depth url⟩

/-- Witness for claim C7: the constant master-chain oracle drives the
top-level entry into the recursion-exceeded error, and a call already past
the bound fails immediately. -/
theorem c7_recursion_bound_witness :
    processM3u8Url c7Cfg c7Fetch (chars ("https://h/a/index.m3u8")) =
      .error .recursionExceeded ∧
    processM3u8UrlGo c7Cfg c7Fetch 40 3 (chars ("https://h/a/index.m3u8")) =
      .error .recursionExceeded := by
  have hchain : ∀ u, ∃ c, c7Fetch u = some c ∧ containsSub extm3uTag c = true ∧
      containsSub streamInfTag c = true ∧ (masterVariantUrl u c).isSome = true := by
    intro u
    refine ⟨c7Master, rfl, by decide, by decide, ?_⟩
    have hv : findVariantRef (splitChar '\n' c7Master) = some (chars ("variant.m3u8")) := by
      decide
    simp [masterVariantUrl, hv]
  exact ⟨(c7_recursion_bound c7Cfg c7Fetch hchain).1 _,
    (c7_recursion_bound c7Cfg c7Fetch hchain).2 40 3 _ (by decide)⟩

/-- A case-insensitive pattern is a prefix of itself followed by anything. -/
theorem ciStarts_self_append (p x : List Char) : ciStarts p (p ++ x) = true := by
  induction p with
  | nil => rfl
  | cons c cs ih => simp [ciStarts, ih]

/-- Scanning `https://` against `http://`-prefixed text fails at the fifth
character. -/
theorem ciStarts_https_of_http (rest : List Char) :
    ciStarts (chars ("https://")) (chars ("http://") ++ rest) = false := by
  simp [chars, ciStarts]

/-- Scanning `http://` against `https://`-prefixed text fails at the sixth
character. -/
theorem ciStarts_http_of_https (rest : List Char) :
    ciStarts (chars ("http://")) (chars ("https://") ++ rest) = false := by
  simp [chars, ciStarts]

/-- `takeWhile` and `dropWhile` split an append at the first failing
character. -/
theorem takeWhile_dropWhile_append {p : Char → Bool} (l l' : List Char)
    (h : l.all p = true) (h2 : ∀ c rest, l' = c :: rest → p c = false) :
    (l ++ l').takeWhile p = l ∧ (l ++ l').dropWhile p = l' := by
  induction l with
  | nil =>
    cases l' with
    | nil => exact ⟨rfl, rfl⟩
    | cons c rest =>
      simp [List.takeWhile, List.dropWhile, h2 c rest rfl]
  | cons c cs ih =>
    rw [List.all_cons, Bool.and_eq_true] at h
    have := ih h.2
    simp [List.takeWhile, List.dropWhile, h.1, this.1, this.2]

/-- The origin-plus-path form of a valid URL parses back to its components:
the round trip that underlies every resolver lemma. -/
theorem parseUrl_origin_path (sec : Bool) (host path : List Char)
    (hh0 : host ≠ []) (hh : host.all isHostChar = true)
    (hp0 : ∃ rest, path = '/' :: rest) (hp : path.all isPathChar = true) :
    parseUrl ((if sec then chars ("https://") else chars ("http://")) ++ host ++ path) =
      some ⟨sec, host, path⟩ := by
  obtain ⟨rest, hrest⟩ := hp0
  have hsplit : (host ++ path).takeWhile (fun c => c ≠ '/') = host ∧
      (host ++ path).dropWhile (fun c => c ≠ '/') = path := by
    refine takeWhile_dropWhile_append host path ?_ ?_
    · refine List.all_eq_true.mpr ?_
      intro c hc
      have hchar := List.all_eq_true.mp hh c hc
      simp only [isHostChar, Bool.and_eq_true, decide_eq_true_eq] at hchar
      simp only [decide_eq_true_eq]
      tauto
    · intro c r hcr
      rw [hrest] at hcr
      cases hcr
      simp
  cases sec with
  | true =>
    rw [if_pos rfl]
    unfold parseUrl
    rw [List.append_assoc]
    simp only [ciStarts_self_append, if_pos]
    have hdrop : (chars ("https://") ++ (host ++ path)).drop 8 = host ++ path := by
      simp [chars]
    rw [hdrop]
    simp only [hsplit.1, hsplit.2]
    have hne : host.isEmpty = false := by
      cases host with
      | nil => exact absurd rfl hh0
      | cons a b => rfl
    have hpne : path.isEmpty = false := by rw [hrest]; rfl
    simp [hne, hpne, hh, hp]
  | false =>
    rw [if_neg (by simp)]
    unfold parseUrl
    rw [List.append_assoc]
    rw [ciStarts_https_of_http (host ++ path)]
    simp only [Bool.false_eq_true, if_false, ciStarts_self_append, if_pos]
    have hdrop : (chars ("http://") ++ (host ++ path)).drop 7 = host ++ path := by
      simp [chars]
    rw [hdrop]
    simp only [hsplit.1, hsplit.2]
    have hne : host.isEmpty = false := by
      cases host with
      | nil => exact absurd rfl hh0
      | cons a b => rfl
    have hpne : path.isEmpty = false := by rw [hrest]; rfl
    simp [hne, hpne, hh, hp]

/-- A reference beginning with a slash never matches the absolute http(s)
pattern. -/
theorem matchesHttpAbs_slash (rest : List Char) :
    matchesHttpAbs ('/' :: rest) = false := by
  have e1 : chars ("http://") = 'h' :: chars ("ttp://") := by decide
  have e2 : chars ("https://") = 'h' :: chars ("ttps://") := by decide
  unfold matchesHttpAbs
  rw [e1, e2]
  simp [ciStarts]

/-- Claim C6.  URL resolution returns an absolute http(s) reference
unchanged (case-insensitive scheme match); joins a non-rooted relative
reference against the base's directory — the base path with its final
segment removed (`dirOfPath`); replaces the base path entirely for a rooted
reference; and produces exactly the spec's values on its three examples. -/
theorem c6_resolve_url :
    (∀ base ref, matchesHttpAbs ref = true → resolveUrl base ref = ref) ∧
    (∀ base p ref, parseUrl base = some p → matchesHttpAbs ref = false →
      ref.head? ≠ some '/' →
      resolveUrl base ref = urlOrigin p ++ dirOfPath p.path ++ ref) ∧
    (∀ base p rest, parseUrl base = some p →
      resolveUrl base ('/' :: rest) = urlOrigin p ++ '/' :: rest) ∧
    resolveUrl (chars ("https://cdn.example.com/live/stream/index.m3u8"))
        (chars ("seg001.ts")) =
      chars ("https://cdn.example.com/live/stream/seg001.ts") ∧
    resolveUrl (chars ("https://cdn.example.com/live/stream/index.m3u8"))
        (chars ("/abs/seg001.ts")) =
      chars ("https://cdn.example.com/abs/seg001.ts") ∧
    resolveUrl (chars ("https://cdn.example.com/live/stream/index.m3u8"))
        (chars ("https://other.cdn/seg.ts")) =
      chars ("https://other.cdn/seg.ts") := by
  refine ⟨?_, ?_, ?_, by decide, by decide, by decide⟩
  · intro base ref h
    unfold resolveUrl
    rw [if_pos h]
  · intro base p ref hb h1 h2
    unfold resolveUrl
    rw [if_neg (by simp [h1])]
    simp only [hb]
    rw [if_neg h2]
  · intro base p rest hb
    unfold resolveUrl
    rw [if_neg (by simp [matchesHttpAbs_slash])]
    simp only [hb]
    rw [if_pos (show ('/' :: rest).head? = some '/' from rfl)]

/-- Witness for claim C6 at concrete inputs: an upper-case absolute scheme is
returned unchanged, a relative reference joins the example base's directory,
and a rooted reference replaces the example base's path. -/
theorem c6_resolve_url_witness :
    resolveUrl (chars ("https://h/a/b.m3u8")) (chars ("HTTPS://Other/x")) =
      chars ("HTTPS://Other/x") ∧
    resolveUrl (chars ("https://cdn.example.com/live/stream/index.m3u8"))
        (chars ("seg001.ts")) =
      urlOrigin c6Base ++ dirOfPath c6Base.path ++ chars ("seg001.ts") ∧
    resolveUrl (chars ("https://cdn.example.com/live/stream/index.m3u8"))
        ('/' :: chars ("abs/seg001.ts")) =
      urlOrigin c6Base ++ '/' :: chars ("abs/seg001.ts") := by
  refine ⟨c6_resolve_url.1 _ _ (by decide), ?_, ?_⟩
  · exact c6_resolve_url.2.1 _ c6Base _ (by decide) (by decide) (by decide)
  · exact c6_resolve_url.2.2.1 _ c6Base _ (by decide)

/-- Trimming preserves a leading non-whitespace pattern. -/
theorem jsTrim_preserves (p l : List Char) (hp : p.all (fun c => !isJsWs c) = true)
    (h : p <+: l) : p <+: jsTrim l := by
  obtain ⟨t, ht⟩ := h
  subst ht
  cases p with
  | nil => exact List.nil_prefix
  | cons c cs =>
    rw [List.all_cons, Bool.and_eq_true] at hp
    have hc : isJsWs c = false := by simpa using hp.1
    have hcs : ∀ x ∈ cs, isJsWs x = false := by
      intro x hx
      simpa using List.all_eq_true.mp hp.2 x hx
    unfold jsTrim
    have h1 : List.dropWhile isJsWs ((c :: cs) ++ t) = (c :: cs) ++ t := by
      simp [List.dropWhile_cons, hc]
    rw [h1]
    have hrev : ((c :: cs) ++ t).reverse = t.reverse ++ (cs.reverse ++ [c]) := by
      simp
    rw [hrev, List.dropWhile_append]
    split
    · rw [List.dropWhile_append]
      split
      · next hemp =>
        have hcse : cs.reverse = [] := by
          cases hcc : cs.reverse with
          | nil => rfl
          | cons a as =>
            exfalso
            have ha : isJsWs a = false := by
              apply hcs
              have : a ∈ cs.reverse := by rw [hcc]; exact List.mem_cons_self ..
              simpa using this
            rw [hcc] at hemp
            simp [List.dropWhile_cons, ha] at hemp
        have hcs0 : cs = [] := by simpa using congrArg List.reverse hcse
        subst hcs0
        simp [List.dropWhile_cons, hc]
      · have hdcs : List.dropWhile isJsWs cs.reverse = cs.reverse := by
          cases hcc : cs.reverse with
          | nil => rfl
          | cons a as =>
            have ha : isJsWs a = false := by
              apply hcs
              have : a ∈ cs.reverse := by rw [hcc]; exact List.mem_cons_self ..
              simpa using this
            simp [List.dropWhile_cons, ha]
        rw [hdcs]
        simp
    · refine ⟨(List.dropWhile isJsWs t.reverse).reverse, ?_⟩
      simp

/-- The duration tag implies the general `#EXT` prefix. -/
theorem extinf_imp_ext {x : List Char} (h : extinfTagColon.isPrefixOf x = true) :
    extTag.isPrefixOf x = true := by
  rw [List.isPrefixOf_iff_prefix] at h ⊢
  exact List.IsPrefix.trans (by decide) h

/-- The duration tag implies the `#` comment prefix. -/
theorem extinf_imp_hash {x : List Char} (h : extinfTagColon.isPrefixOf x = true) :
    hashTag.isPrefixOf x = true := by
  rw [List.isPrefixOf_iff_prefix] at h ⊢
  exact List.IsPrefix.trans (by decide) h

/-- The `#EXT` tag implies the `#` comment prefix. -/
theorem ext_imp_hash {x : List Char} (h : extTag.isPrefixOf x = true) :
    hashTag.isPrefixOf x = true := by
  rw [List.isPrefixOf_iff_prefix] at h ⊢
  exact List.IsPrefix.trans (by decide) h

/-- A line carrying the duration tag cannot carry the map tag. -/
theorem extinf_not_map {x : List Char} (h : extinfTagColon.isPrefixOf x = true) :
    mapTagColon.isPrefixOf x = false := by
  by_contra hmap
  rw [Bool.not_eq_false, List.isPrefixOf_iff_prefix] at hmap
  rw [List.isPrefixOf_iff_prefix] at h
  have := List.prefix_of_prefix_length_le h hmap (by decide)
  exact absurd this (by decide)

/-- Unfolding equation of the parser loop on the empty line list. -/
theorem parseLoop_nil (fuel i : ℕ) (disc : Bool) (mapLine : Option (List Char))
    (idx : ℕ) : parseLoop fuel i [] disc mapLine idx = ⟨[], [], []⟩ := by
  cases fuel <;> rfl

/-- Unfolding equation of the parser loop with exhausted fuel (unreachable
from `parseM3U8Structure`, whose fuel equals the number of lines). -/
theorem parseLoop_zero (i : ℕ) (l : List Char) (rest : List (List Char))
    (disc : Bool) (mapLine : Option (List Char)) (idx : ℕ) :
    parseLoop 0 i (l :: rest) disc mapLine idx = ⟨[], [], []⟩ := rfl

/-- One-step unfolding equation of the parser loop on a line. -/
theorem parseLoop_cons (fuel i : ℕ) (l : List Char) (rest : List (List Char))
    (disc : Bool) (mapLine : Option (List Char)) (idx : ℕ) :
    parseLoop (fuel + 1) i (l :: rest) disc mapLine idx =
      (if i < 10 ∧ extTag.isPrefixOf (jsTrim l) then
        let p := parseLoop fuel (i + 1) rest disc mapLine idx
        { p with headersMain := jsTrim l :: p.headersMain }
      else if mapTagColon.isPrefixOf (jsTrim l) then
        parseLoop fuel (i + 1) rest disc (some (jsTrim l)) idx
      else if containsSub discTag (jsTrim l) then
        parseLoop fuel (i + 1) rest true mapLine idx
      else if extinfTagColon.isPrefixOf (jsTrim l) then
        match extinfCapture (jsTrim l), rest with
        | some cap, next :: rest2 =>
          if ¬ next.isEmpty ∧ ¬ hashTag.isPrefixOf next then
            let p := parseLoop fuel (i + 2) rest2 false none (idx + 1)
            { p with segments := mkPSeg i idx disc mapLine cap (jsTrim l) next :: p.segments }
          else parseLoop fuel (i + 1) (next :: rest2) disc mapLine idx
        | some _, [] => parseLoop fuel (i + 1) [] disc mapLine idx
        | none, r => parseLoop fuel (i + 1) r disc mapLine idx
      else if hashTag.isPrefixOf (jsTrim l) then
        let p := parseLoop fuel (i + 1) rest disc mapLine idx
        { p with headersOther := jsTrim l :: p.headersOther }
      else parseLoop fuel (i + 1) rest disc mapLine idx) := rfl

/-- Soundness of the structural parser: every emitted segment sits at a line
index at least 10 whose trimmed line carries the duration tag and whose raw
successor line exists, is non-empty and is not a comment. -/
theorem parseLoop_sound (fuel i : ℕ) (rest : List (List Char)) (disc : Bool)
    (mapLine : Option (List Char)) (idx : ℕ) :
    ∀ s ∈ (parseLoop fuel i rest disc mapLine idx).segments,
      ∃ k l nxt, rest[k]? = some l ∧ rest[k+1]? = some nxt ∧
        s.startLine = i + k ∧ 10 ≤ i + k ∧
        extinfTagColon.isPrefixOf (jsTrim l) = true ∧
        nxt.isEmpty = false ∧ hashTag.isPrefixOf nxt = false := by
  induction fuel, i, rest, disc, mapLine, idx using parseLoop.induct with
  | case1 t x d m n =>
    intro s hs
    simp [parseLoop_nil] at hs
  | case2 x h t d m n =>
    intro s hs
    simp [parseLoop_zero] at hs
  | case3 fuel i l rest disc mapLine idx line hcond ih =>
    intro s hs
    rw [parseLoop_cons] at hs
    rw [if_pos hcond] at hs
    obtain ⟨k, l', nxt, h1, h2, h3, h4, h5, h6, h7⟩ := ih s hs
    exact ⟨k + 1, l', nxt, by simpa using h1, by simpa using h2, by omega, by omega,
      h5, h6, h7⟩
  | case4 fuel i l rest disc mapLine idx line hc1 hc2 ih =>
    intro s hs
    rw [parseLoop_cons] at hs
    rw [if_neg hc1, if_pos hc2] at hs
    obtain ⟨k, l', nxt, h1, h2, h3, h4, h5, h6, h7⟩ := ih s hs
    exact ⟨k + 1, l', nxt, by simpa using h1, by simpa using h2, by omega, by omega,
      h5, h6, h7⟩
  | case5 fuel i l rest disc mapLine idx line hc1 hc2 hc3 ih =>
    intro s hs
    rw [parseLoop_cons] at hs
    rw [if_neg hc1, if_neg hc2, if_pos hc3] at hs
    obtain ⟨k, l', nxt, h1, h2, h3, h4, h5, h6, h7⟩ := ih s hs
    exact ⟨k + 1, l', nxt, by simpa using h1, by simpa using h2, by omega, by omega,
      h5, h6, h7⟩
  | case6 fuel i l disc mapLine idx line hc1 hc2 hc3 hc4 cap next rest2 hcap hnext ih =>
    intro s hs
    rw [parseLoop_cons] at hs
    rw [if_neg hc1, if_neg hc2, if_neg hc3, if_pos hc4] at hs
    simp only [hcap] at hs
    simp only [if_pos hnext] at hs
    rcases List.mem_cons.mp hs with hs | hs
    · subst hs
      have h10 : 10 ≤ i := by
        by_contra hlt
        exact hc1 ⟨by omega, extinf_imp_ext hc4⟩
      exact ⟨0, l, next, rfl, by simp, rfl, by omega, hc4,
        Bool.eq_false_iff.mpr hnext.1, Bool.eq_false_iff.mpr hnext.2⟩
    · obtain ⟨k, l', nxt, h1, h2, h3, h4, h5, h6, h7⟩ := ih s hs
      exact ⟨k + 2, l', nxt, by simpa using h1, by simpa using h2, by omega, by omega,
        h5, h6, h7⟩
  | case7 fuel i l disc mapLine idx line hc1 hc2 hc3 hc4 cap next rest2 hcap hnext ih =>
    intro s hs
    rw [parseLoop_cons] at hs
    rw [if_neg hc1, if_neg hc2, if_neg hc3, if_pos hc4] at hs
    simp only [hcap] at hs
    simp only [if_neg hnext] at hs
    obtain ⟨k, l', nxt, h1, h2, h3, h4, h5, h6, h7⟩ := ih s hs
    exact ⟨k + 1, l', nxt, by simpa using h1, by simpa using h2, by omega, by omega,
      h5, h6, h7⟩
  | case8 fuel i l disc mapLine idx line hc1 hc2 hc3 hc4 cap hcap ih =>
    intro s hs
    rw [parseLoop_cons] at hs
    rw [if_neg hc1, if_neg hc2, if_neg hc3, if_pos hc4] at hs
    simp only [hcap] at hs
    obtain ⟨k, l', nxt, h1, h2, h3, h4, h5, h6, h7⟩ := ih s hs
    exact ⟨k + 1, l', nxt, by simpa using h1, by simpa using h2, by omega, by omega,
      h5, h6, h7⟩
  | case9 fuel i l disc mapLine idx line hc1 hc2 hc3 hc4 r hcap ih =>
    intro s hs
    rw [parseLoop_cons] at hs
    rw [if_neg hc1, if_neg hc2, if_neg hc3, if_pos hc4] at hs
    simp only [hcap] at hs
    obtain ⟨k, l', nxt, h1, h2, h3, h4, h5, h6, h7⟩ := ih s hs
    exact ⟨k + 1, l', nxt, by simpa using h1, by simpa using h2, by omega, by omega,
      h5, h6, h7⟩
  | case10 fuel i l rest disc mapLine idx line hc1 hc2 hc3 hc4 hc5 ih =>
    intro s hs
    rw [parseLoop_cons] at hs
    rw [if_neg hc1, if_neg hc2, if_neg hc3, if_neg hc4, if_pos hc5] at hs
    obtain ⟨k, l', nxt, h1, h2, h3, h4, h5, h6, h7⟩ := ih s hs
    exact ⟨k + 1, l', nxt, by simpa using h1, by simpa using h2, by omega, by omega,
      h5, h6, h7⟩
  | case11 fuel i l rest disc mapLine idx line hc1 hc2 hc3 hc4 hc5 ih =>
    intro s hs
    rw [parseLoop_cons] at hs
    rw [if_neg hc1, if_neg hc2, if_neg hc3, if_neg hc4, if_neg hc5] at hs
    obtain ⟨k, l', nxt, h1, h2, h3, h4, h5, h6, h7⟩ := ih s hs
    exact ⟨k + 1, l', nxt, by simpa using h1, by simpa using h2, by omega, by omega,
      h5, h6, h7⟩

/-- Trimming preserves the `#EXT` tag prefix. -/
theorem trim_ext {l : List Char} (h : extTag.isPrefixOf l = true) :
    extTag.isPrefixOf (jsTrim l) = true := by
  rw [List.isPrefixOf_iff_prefix] at h ⊢
  exact jsTrim_preserves _ _ (by decide) h

/-- Header capture: a raw line starting with `#EXT` among the first ten
lines is recorded (trimmed) among the primary headers, provided the fuel
covers the remaining lines. -/
theorem parseLoop_header (fuel i : ℕ) (rest : List (List Char)) (disc : Bool)
    (mapLine : Option (List Char)) (idx : ℕ) :
    ∀ k l, rest[k]? = some l → i + k < 10 → extTag.isPrefixOf l = true →
      rest.length ≤ fuel →
      jsTrim l ∈ (parseLoop fuel i rest disc mapLine idx).headersMain := by
  induction fuel, i, rest, disc, mapLine, idx using parseLoop.induct with
  | case1 t x d m n =>
    intro k l hk
    simp at hk
  | case2 x h t d m n =>
    intro k l hk hik hpre hlen
    simp at hlen
  | case3 fuel i l rest disc mapLine idx line hcond ih =>
    intro k l' hk hik hpre hlen
    rw [parseLoop_cons, if_pos hcond]
    cases k with
    | zero =>
      simp only [List.getElem?_cons_zero, Option.some.injEq] at hk
      subst hk
      exact List.mem_cons_self ..
    | succ k =>
      simp only [List.getElem?_cons_succ] at hk
      exact List.mem_cons_of_mem _ (ih k l' hk (by omega) hpre (by simpa using Nat.le_of_succ_le_succ (by simpa using hlen)))
  | case4 fuel i l rest disc mapLine idx line hc1 hc2 ih =>
    intro k l' hk hik hpre hlen
    rw [parseLoop_cons, if_neg hc1, if_pos hc2]
    cases k with
    | zero =>
      simp only [List.getElem?_cons_zero, Option.some.injEq] at hk
      subst hk
      exact absurd ⟨by omega, trim_ext hpre⟩ hc1
    | succ k =>
      simp only [List.getElem?_cons_succ] at hk
      exact ih k l' hk (by omega) hpre (by simp at hlen ⊢; omega)
  | case5 fuel i l rest disc mapLine idx line hc1 hc2 hc3 ih =>
    intro k l' hk hik hpre hlen
    rw [parseLoop_cons, if_neg hc1, if_neg hc2, if_pos hc3]
    cases k with
    | zero =>
      simp only [List.getElem?_cons_zero, Option.some.injEq] at hk
      subst hk
      exact absurd ⟨by omega, trim_ext hpre⟩ hc1
    | succ k =>
      simp only [List.getElem?_cons_succ] at hk
      exact ih k l' hk (by omega) hpre (by simp at hlen ⊢; omega)
  | case6 fuel i l disc mapLine idx line hc1 hc2 hc3 hc4 cap next rest2 hcap hnext ih =>
    intro k l' hk hik hpre hlen
    rw [parseLoop_cons, if_neg hc1, if_neg hc2, if_neg hc3, if_pos hc4]
    simp only [hcap, if_pos hnext]
    match k, hk with
    | 0, hk =>
      simp only [List.getElem?_cons_zero, Option.some.injEq] at hk
      subst hk
      exact absurd ⟨by omega, trim_ext hpre⟩ hc1
    | 1, hk =>
      simp only [List.getElem?_cons_succ, List.getElem?_cons_zero, Option.some.injEq] at hk
      subst hk
      exact absurd (ext_imp_hash hpre) (by simpa using hnext.2)
    | (k + 2), hk =>
      simp only [List.getElem?_cons_succ] at hk
      exact ih k l' hk (by omega) hpre (by simp at hlen ⊢; omega)
  | case7 fuel i l disc mapLine idx line hc1 hc2 hc3 hc4 cap next rest2 hcap hnext ih =>
    intro k l' hk hik hpre hlen
    rw [parseLoop_cons, if_neg hc1, if_neg hc2, if_neg hc3, if_pos hc4]
    simp only [hcap, if_neg hnext]
    cases k with
    | zero =>
      simp only [List.getElem?_cons_zero, Option.some.injEq] at hk
      subst hk
      exact absurd ⟨by omega, trim_ext hpre⟩ hc1
    | succ k =>
      simp only [List.getElem?_cons_succ] at hk
      exact ih k l' hk (by omega) hpre (by simp at hlen ⊢; omega)
  | case8 fuel i l disc mapLine idx line hc1 hc2 hc3 hc4 cap hcap ih =>
    intro k l' hk hik hpre hlen
    cases k with
    | zero =>
      simp only [List.getElem?_cons_zero, Option.some.injEq] at hk
      subst hk
      exact absurd ⟨by omega, trim_ext hpre⟩ hc1
    | succ k =>
      simp at hk
  | case9 fuel i l disc mapLine idx line hc1 hc2 hc3 hc4 r hcap ih =>
    intro k l' hk hik hpre hlen
    rw [parseLoop_cons, if_neg hc1, if_neg hc2, if_neg hc3, if_pos hc4]
    simp only [hcap]
    cases k with
    | zero =>
      simp only [List.getElem?_cons_zero, Option.some.injEq] at hk
      subst hk
      exact absurd ⟨by omega, trim_ext hpre⟩ hc1
    | succ k =>
      simp only [List.getElem?_cons_succ] at hk
      exact ih k l' hk (by omega) hpre (by simp at hlen ⊢; omega)
  | case10 fuel i l rest disc mapLine idx line hc1 hc2 hc3 hc4 hc5 ih =>
    intro k l' hk hik hpre hlen
    rw [parseLoop_cons, if_neg hc1, if_neg hc2, if_neg hc3, if_neg hc4, if_pos hc5]
    cases k with
    | zero =>
      simp only [List.getElem?_cons_zero, Option.some.injEq] at hk
      subst hk
      exact absurd ⟨by omega, trim_ext hpre⟩ hc1
    | succ k =>
      simp only [List.getElem?_cons_succ] at hk
      exact ih k l' hk (by omega) hpre (by simp at hlen ⊢; omega)
  | case11 fuel i l rest disc mapLine idx line hc1 hc2 hc3 hc4 hc5 ih =>
    intro k l' hk hik hpre hlen
    rw [parseLoop_cons, if_neg hc1, if_neg hc2, if_neg hc3, if_neg hc4, if_neg hc5]
    cases k with
    | zero =>
      simp only [List.getElem?_cons_zero, Option.some.injEq] at hk
      subst hk
      exact absurd ⟨by omega, trim_ext hpre⟩ hc1
    | succ k =>
      simp only [List.getElem?_cons_succ] at hk
      exact ih k l' hk (by omega) hpre (by simp at hlen ⊢; omega)

/-- Completeness of the structural parser: a well-formed duration tag
(outside the ten-line header window, starting with `#` in raw form, whose
trimmed line matches the duration regular expression and carries no
discontinuity substring) followed by a non-empty non-comment raw line always
emits a segment at its own line index, provided the fuel covers the
remaining lines. -/
theorem parseLoop_complete (fuel i : ℕ) (rest : List (List Char)) (disc : Bool)
    (mapLine : Option (List Char)) (idx : ℕ) :
    ∀ k l nxt, rest[k]? = some l → rest[k+1]? = some nxt →
      rest.length ≤ fuel → 10 ≤ i + k →
      hashTag.isPrefixOf l = true →
      extinfTagColon.isPrefixOf (jsTrim l) = true →
      containsSub discTag (jsTrim l) = false →
      (extinfCapture (jsTrim l)).isSome = true →
      nxt.isEmpty = false → hashTag.isPrefixOf nxt = false →
      ∃ s ∈ (parseLoop fuel i rest disc mapLine idx).segments, s.startLine = i + k := by
  induction fuel, i, rest, disc, mapLine, idx using parseLoop.induct with
  | case1 t x d m n =>
    intro k l nxt hk
    simp at hk
  | case2 x h t d m n =>
    intro k l nxt hk hk1 hlen
    simp at hlen
  | case3 fuel i l rest disc mapLine idx line hcond ih =>
    intro k l' nxt hk hk1 hlen h10 hraw htag hdisc hcap hne hnh
    rw [parseLoop_cons, if_pos hcond]
    cases k with
    | zero => omega
    | succ k =>
      simp only [List.getElem?_cons_succ] at hk hk1
      obtain ⟨s, hs, hsl⟩ := ih k l' nxt hk hk1 (by simp at hlen ⊢; omega) (by omega)
        hraw htag hdisc hcap hne hnh
      exact ⟨s, hs, by omega⟩
  | case4 fuel i l rest disc mapLine idx line hc1 hc2 ih =>
    intro k l' nxt hk hk1 hlen h10 hraw htag hdisc hcap hne hnh
    rw [parseLoop_cons, if_neg hc1, if_pos hc2]
    cases k with
    | zero =>
      simp only [List.getElem?_cons_zero, Option.some.injEq] at hk
      subst hk
      exact absurd hc2 (by simp [extinf_not_map htag])
    | succ k =>
      simp only [List.getElem?_cons_succ] at hk hk1
      obtain ⟨s, hs, hsl⟩ := ih k l' nxt hk hk1 (by simp at hlen ⊢; omega) (by omega)
        hraw htag hdisc hcap hne hnh
      exact ⟨s, hs, by omega⟩
  | case5 fuel i l rest disc mapLine idx line hc1 hc2 hc3 ih =>
    intro k l' nxt hk hk1 hlen h10 hraw htag hdisc hcap hne hnh
    rw [parseLoop_cons, if_neg hc1, if_neg hc2, if_pos hc3]
    cases k with
    | zero =>
      simp only [List.getElem?_cons_zero, Option.some.injEq] at hk
      subst hk
      exact absurd hc3 (by simp [hdisc])
    | succ k =>
      simp only [List.getElem?_cons_succ] at hk hk1
      obtain ⟨s, hs, hsl⟩ := ih k l' nxt hk hk1 (by simp at hlen ⊢; omega) (by omega)
        hraw htag hdisc hcap hne hnh
      exact ⟨s, hs, by omega⟩
  | case6 fuel i l disc mapLine idx line hc1 hc2 hc3 hc4 cap next rest2 hcap hnext ih =>
    intro k l' nxt hk hk1 hlen h10 hraw htag hdisc hcapS hne hnh
    rw [parseLoop_cons, if_neg hc1, if_neg hc2, if_neg hc3, if_pos hc4]
    simp only [hcap, if_pos hnext]
    match k, hk, hk1 with
    | 0, hk, hk1 =>
      exact ⟨mkPSeg i idx disc mapLine cap (jsTrim l) next, List.mem_cons_self .., by
        simp [mkPSeg]⟩
    | 1, hk, hk1 =>
      simp only [List.getElem?_cons_succ, List.getElem?_cons_zero, Option.some.injEq] at hk
      subst hk
      exact absurd hraw (by simpa using hnext.2)
    | (k + 2), hk, hk1 =>
      simp only [List.getElem?_cons_succ] at hk hk1
      obtain ⟨s, hs, hsl⟩ := ih k l' nxt hk hk1 (by simp at hlen ⊢; omega) (by omega)
        hraw htag hdisc hcapS hne hnh
      exact ⟨s, List.mem_cons_of_mem _ hs, by omega⟩
  | case7 fuel i l disc mapLine idx line hc1 hc2 hc3 hc4 cap next rest2 hcap hnext ih =>
    intro k l' nxt hk hk1 hlen h10 hraw htag hdisc hcapS hne hnh
    rw [parseLoop_cons, if_neg hc1, if_neg hc2, if_neg hc3, if_pos hc4]
    simp only [hcap, if_neg hnext]
    cases k with
    | zero =>
      simp only [List.getElem?_cons_zero, Option.some.injEq] at hk
      simp only [List.getElem?_cons_succ, List.getElem?_cons_zero, Option.some.injEq] at hk1
      subst hk
      subst hk1
      exact absurd ⟨by simp [hne], by simp [hnh]⟩ hnext
    | succ k =>
      rw [List.getElem?_cons_succ] at hk hk1
      obtain ⟨s, hs, hsl⟩ := ih k l' nxt hk hk1 (by simp at hlen ⊢; omega) (by omega)
        hraw htag hdisc hcapS hne hnh
      exact ⟨s, hs, by omega⟩
  | case8 fuel i l disc mapLine idx line hc1 hc2 hc3 hc4 cap hcap ih =>
    intro k l' nxt hk hk1 hlen h10 hraw htag hdisc hcapS hne hnh
    cases k with
    | zero => simp at hk1
    | succ k => simp at hk
  | case9 fuel i l disc mapLine idx line hc1 hc2 hc3 hc4 r hcap ih =>
    intro k l' nxt hk hk1 hlen h10 hraw htag hdisc hcapS hne hnh
    rw [parseLoop_cons, if_neg hc1, if_neg hc2, if_neg hc3, if_pos hc4]
    simp only [hcap]
    cases k with
    | zero =>
      simp only [List.getElem?_cons_zero, Option.some.injEq] at hk
      subst hk
      rw [hcap] at hcapS
      simp at hcapS
    | succ k =>
      simp only [List.getElem?_cons_succ] at hk hk1
      obtain ⟨s, hs, hsl⟩ := ih k l' nxt hk hk1 (by simp at hlen ⊢; omega) (by omega)
        hraw htag hdisc hcapS hne hnh
      exact ⟨s, hs, by omega⟩
  | case10 fuel i l rest disc mapLine idx line hc1 hc2 hc3 hc4 hc5 ih =>
    intro k l' nxt hk hk1 hlen h10 hraw htag hdisc hcapS hne hnh
    rw [parseLoop_cons, if_neg hc1, if_neg hc2, if_neg hc3, if_neg hc4, if_pos hc5]
    cases k with
    | zero =>
      simp only [List.getElem?_cons_zero, Option.some.injEq] at hk
      subst hk
      exact absurd htag hc4
    | succ k =>
      simp only [List.getElem?_cons_succ] at hk hk1
      obtain ⟨s, hs, hsl⟩ := ih k l' nxt hk hk1 (by simp at hlen ⊢; omega) (by omega)
        hraw htag hdisc hcapS hne hnh
      exact ⟨s, hs, by omega⟩
  | case11 fuel i l rest disc mapLine idx line hc1 hc2 hc3 hc4 hc5 ih =>
    intro k l' nxt hk hk1 hlen h10 hraw htag hdisc hcapS hne hnh
    rw [parseLoop_cons, if_neg hc1, if_neg hc2, if_neg hc3, if_neg hc4, if_neg hc5]
    cases k with
    | zero =>
      simp only [List.getElem?_cons_zero, Option.some.injEq] at hk
      subst hk
      exact absurd htag hc4
    | succ k =>
      simp only [List.getElem?_cons_succ] at hk hk1
      obtain ⟨s, hs, hsl⟩ := ih k l' nxt hk hk1 (by simp at hlen ⊢; omega) (by omega)
        hraw htag hdisc hcapS hne hnh
      exact ⟨s, hs, by omega⟩

/-- Claim C8.  A duration tag line whose raw successor line is missing,
empty, or itself a comment emits no segment at that line index — the parser
skips it; and parsing continues: every well-formed duration tag elsewhere
(outside the header window, raw `#`-line with a matching duration value and
no discontinuity substring, followed by a non-empty non-comment line) still
emits its segment.  The parse itself is a total function, so the whole parse
never fails. -/
theorem c8_malformed_extinf (content : List Char) (i : ℕ)
    (hbad : (splitChar '\n' content)[i+1]? = none ∨
      (splitChar '\n' content)[i+1]? = some [] ∨
      ∃ nxt, (splitChar '\n' content)[i+1]? = some nxt ∧ hashTag.isPrefixOf nxt = true) :
    (∀ s ∈ (parseM3U8Structure content).segments, s.startLine ≠ i) ∧
    (∀ j l nxt, (splitChar '\n' content)[j]? = some l →
      (splitChar '\n' content)[j+1]? = some nxt → 10 ≤ j →
      hashTag.isPrefixOf l = true →
      extinfTagColon.isPrefixOf (jsTrim l) = true →
      containsSub discTag (jsTrim l) = false →
      (extinfCapture (jsTrim l)).isSome = true →
      nxt.isEmpty = false → hashTag.isPrefixOf nxt = false →
      ∃ s ∈ (parseM3U8Structure content).segments, s.startLine = j) := by
  constructor
  · intro s hs hi
    obtain ⟨k, l, nxt, h1, h2, h3, h4, h5, h6, h7⟩ :=
      parseLoop_sound _ 0 _ false none 0 s hs
    have hk : k = i := by omega
    subst hk
    rcases hbad with hb | hb | ⟨nxt', hb, hb2⟩
    · rw [hb] at h2
      simp at h2
    · rw [hb] at h2
      obtain rfl : nxt = [] := by simpa using h2.symm
      simp at h6
    · rw [hb] at h2
      obtain rfl : nxt = nxt' := by simpa using h2.symm
      rw [hb2] at h7
      simp at h7
  · intro j l nxt h1 h2 h10 hraw htag hdisc hcap hne hnh
    obtain ⟨s, hs, hsl⟩ := parseLoop_complete _ 0 _ false none 0 j l nxt h1 h2
      (le_refl _) (by omega) hraw htag hdisc hcap hne hnh
    exact ⟨s, hs, by omega⟩

/-- Witness for claim C8 at a concrete playlist: the malformed tag at line
10 yields no segment, the well-formed one at line 12 still does. -/
theorem c8_malformed_extinf_witness :
    (parseM3U8Structure c8Content).segments.all (fun s => decide (s.startLine ≠ 10)) = true ∧
    (parseM3U8Structure c8Content).segments.any (fun s => decide (s.startLine = 12)) = true := by
  have h := c8_malformed_extinf c8Content 10
    (Or.inr (Or.inr ⟨chars ("#COMMENT"), by decide, by decide⟩))
  constructor
  · refine List.all_eq_true.mpr ?_
    intro s hs
    simpa using h.1 s hs
  · obtain ⟨s, hs, hsl⟩ := h.2 12 (chars ("#EXTINF:5,")) (chars ("seg.ts"))
      (by decide) (by decide) (by decide) (by decide) (by decide) (by decide)
      (by decide) (by decide) (by decide)
    exact List.any_eq_true.mpr ⟨s, hs, by simpa using hsl⟩

/-- Claim C9.  A raw line among the first ten input lines beginning with
`#EXT` — in particular a duration tag — is captured (trimmed) as a primary
header line and yields no segment at that index, so such a segment is never
scored, classified or removed by the ad classifier, which operates on the
parsed segment list only. -/
theorem c9_header_window (content : List Char) (i : ℕ) (l : List Char)
    (hline : (splitChar '\n' content)[i]? = some l)
    (hi : i < 10) (hpre : extTag.isPrefixOf l = true) :
    jsTrim l ∈ (parseM3U8Structure content).headersMain ∧
    ∀ s ∈ (parseM3U8Structure content).segments, s.startLine ≠ i := by
  constructor
  · exact parseLoop_header _ 0 _ false none 0 i l hline (by omega) hpre (le_refl _)
  · intro s hs hsl
    obtain ⟨k, l', nxt, h1, h2, h3, h4, h5, h6, h7⟩ :=
      parseLoop_sound _ 0 _ false none 0 s hs
    omega

/-- Witness for claim C9 at a concrete playlist: the duration tag at line 2
lands among the primary headers and produces no segment. -/
theorem c9_header_window_witness :
    jsTrim (chars ("#EXTINF:9,")) ∈ (parseM3U8Structure c9Content).headersMain ∧
    (parseM3U8Structure c9Content).segments.all (fun s => decide (s.startLine ≠ 2)) = true := by
  have h := c9_header_window c9Content 2 (chars ("#EXTINF:9,"))
    (by decide) (by decide) (by decide)
  exact ⟨h.1, List.all_eq_true.mpr (fun s hs => by simpa using h.2 s hs)⟩

/-- Transfer of a universal Boolean predicate along a sublist. -/
theorem all_of_sublist {l l' : List Char} {p : Char → Bool} (hs : l'.Sublist l)
    (h : l.all p = true) : l'.all p = true := by
  rw [List.all_eq_true] at *
  exact fun x hx => h x (hs.subset hx)

/-- The first element surviving `dropWhile` fails the dropped predicate. -/
theorem head_dropWhile_false (p : Char → Bool) (l : List Char) (c : Char)
    (h : (l.dropWhile p).head? = some c) : p c = false := by
  induction l with
  | nil => simp [List.dropWhile] at h
  | cons a l ih =>
    rw [List.dropWhile_cons] at h
    by_cases hp : p a = true
    · rw [if_pos hp] at h
      exact ih h
    · rw [if_neg hp, List.head?_cons, Option.some_inj] at h
      rw [← h]
      exact Bool.eq_false_iff.mpr hp

/-- A list is a prefix of itself extended by anything. -/
theorem isPrefixOf_append_self (p x : List Char) : p.isPrefixOf (p ++ x) = true := by
  rw [List.isPrefixOf_iff_prefix]
  exact List.prefix_append p x

/-- A prefix test against an append is settled inside the left part when the
pattern is no longer than it. -/
theorem isPrefixOf_append_eq (p : List Char) : ∀ (a x : List Char),
    p.length ≤ a.length → p.isPrefixOf (a ++ x) = p.isPrefixOf a := by
  induction p with
  | nil => intro a x _; simp [List.isPrefixOf]
  | cons pc ps ih =>
    intro a x h
    cases a with
    | nil => simp at h
    | cons ac as =>
      show ((pc == ac) && ps.isPrefixOf (as ++ x)) = ((pc == ac) && ps.isPrefixOf as)
      rw [ih as x (by simp only [List.length_cons] at h; omega)]

/-- Two pattern tests exclude each other when the shorter pattern matches but
is not itself a prefix of the longer one. -/
theorem isPrefixOf_excl {t1 t2 x : List Char} (h1 : t1.isPrefixOf x = true)
    (hlen : t1.length ≤ t2.length) (hne : t1.isPrefixOf t2 = false) :
    t2.isPrefixOf x = false := by
  by_contra h
  rw [Bool.not_eq_false, List.isPrefixOf_iff_prefix] at h
  rw [List.isPrefixOf_iff_prefix] at h1
  have h2 := List.prefix_of_prefix_length_le h1 h hlen
  rw [← List.isPrefixOf_iff_prefix] at h2
  rw [h2] at hne
  simp at hne

/-- A pattern whose first character differs from the subject's first
character is not a prefix of it. -/
theorem isPrefixOf_head_ne {t x : List Char} {c d : Char} (ht : t.head? = some c)
    (hx : x.head? = some d) (hne : c ≠ d) : t.isPrefixOf x = false := by
  cases t with
  | nil => simp at ht
  | cons a as =>
    cases x with
    | nil => simp at hx
    | cons b bs =>
      rw [List.head?_cons, Option.some_inj] at ht hx
      subst ht
      subst hx
      simp [List.isPrefixOf, hne]

/-- Splitting never produces the empty list of pieces. -/
theorem splitChar_ne_nil (sep : Char) (l : List Char) : splitChar sep l ≠ [] := by
  induction l with
  | nil => simp [splitChar]
  | cons c cs ih =>
    cases h : splitChar sep cs with
    | nil => exact absurd h ih
    | cons hd tl => by_cases hc : c = sep <;> simp [splitChar, h, hc]

/-- Every piece produced by splitting is free of the separator. -/
theorem mem_splitChar_no_sep (sep : Char) (x : List Char) :
    ∀ l ∈ splitChar sep x, l.all (fun c => c ≠ sep) = true := by
  induction x with
  | nil =>
    intro l hl
    simp [splitChar] at hl
    simp [hl]
  | cons c cs ih =>
    intro l hl
    cases h : splitChar sep cs with
    | nil => exact absurd h (splitChar_ne_nil sep cs)
    | cons hd tl =>
      rw [splitChar, h] at hl
      have hl2 : l ∈ (if c = sep then [] :: hd :: tl else (c :: hd) :: tl) := hl
      by_cases hc : c = sep
      · rw [if_pos hc] at hl2
        rcases List.mem_cons.mp hl2 with h1 | h1
        · simp [h1]
        · exact ih l (h ▸ h1)
      · rw [if_neg hc] at hl2
        rcases List.mem_cons.mp hl2 with h1 | h1
        · have hhd := ih hd (h ▸ List.mem_cons_self hd tl)
          rw [h1, List.all_cons, hhd]
          simp [hc]
        · exact ih l (h ▸ List.mem_cons.mpr (Or.inr h1))

/-- A separator-free list splits into exactly itself. -/
theorem splitChar_of_no_sep (sep : Char) (l : List Char)
    (h : l.all (fun c => c ≠ sep) = true) : splitChar sep l = [l] := by
  induction l with
  | nil => rfl
  | cons c cs ih =>
    rw [List.all_cons, Bool.and_eq_true] at h
    have hc : ¬ c = sep := by simpa using h.1
    rw [splitChar, ih h.2]
    simp [hc]

/-- Splitting a separator-free piece glued by a separator onto a remainder
peels off exactly that piece. -/
theorem splitChar_append_sep (sep : Char) (l rest : List Char)
    (h : l.all (fun c => c ≠ sep) = true) :
    splitChar sep (l ++ sep :: rest) = l :: splitChar sep rest := by
  induction l with
  | nil =>
    cases hr : splitChar sep rest with
    | nil => exact absurd hr (splitChar_ne_nil sep rest)
    | cons hd tl => simp [splitChar, hr]
  | cons c cs ih =>
    rw [List.all_cons, Bool.and_eq_true] at h
    have hc : ¬ c = sep := by simpa using h.1
    have hcs := ih h.2
    rw [List.cons_append, splitChar, hcs]
    simp [hc]

/-- Splitting undoes joining as long as the pieces are separator-free and at
least one piece is present. -/
theorem splitChar_joinChar (sep : Char) (L : List (List Char)) (hL : L ≠ [])
    (h : ∀ l ∈ L, l.all (fun c => c ≠ sep) = true) :
    splitChar sep (joinChar sep L) = L := by
  induction L with
  | nil => exact absurd rfl hL
  | cons l L' ih =>
    cases L' with
    | nil => exact splitChar_of_no_sep sep l (h l (List.mem_cons_self _ _))
    | cons l2 t =>
      have hj : joinChar sep (l :: l2 :: t) = l ++ sep :: joinChar sep (l2 :: t) := rfl
      rw [hj, splitChar_append_sep sep l _ (h l (List.mem_cons_self _ _))]
      rw [ih (List.cons_ne_nil l2 t) (fun x hx => h x (List.mem_cons.mpr (Or.inr hx)))]

/-- Trimming only removes characters, so an all-characters invariant
survives it. -/
theorem jsTrim_all (p : Char → Bool) (l : List Char) (h : l.all p = true) :
    (jsTrim l).all p = true := by
  unfold jsTrim
  have h1 := all_of_sublist (List.dropWhile_sublist isJsWs) h
  have h2 : (l.dropWhile isJsWs).reverse.all p = true := by
    rw [List.all_reverse]
    exact h1
  have h3 := all_of_sublist (List.dropWhile_sublist isJsWs) h2
  rw [List.all_reverse]
  exact h3

/-- The first character of a trimmed string is not whitespace. -/
theorem jsTrim_head {l : List Char} {c : Char} (h : (jsTrim l).head? = some c) :
    isJsWs c = false := by
  unfold jsTrim at h
  rw [List.head?_reverse] at h
  have hz : (l.dropWhile isJsWs).reverse.dropWhile isJsWs ≠ [] := by
    intro h0
    rw [h0] at h
    simp at h
  obtain ⟨t, ht⟩ := List.dropWhile_suffix (l := (l.dropWhile isJsWs).reverse) isJsWs
  have hgl : ((l.dropWhile isJsWs).reverse.dropWhile isJsWs).getLast? =
      (l.dropWhile isJsWs).reverse.getLast? := by
    conv_rhs => rw [← ht]
    exact (List.getLast?_append_of_ne_nil t hz).symm
  rw [hgl, List.getLast?_reverse] at h
  exact head_dropWhile_false _ _ _ h

/-- The last character of a trimmed string is not whitespace. -/
theorem jsTrim_last {l : List Char} {c : Char} (h : (jsTrim l).getLast? = some c) :
    isJsWs c = false := by
  unfold jsTrim at h
  rw [List.getLast?_reverse] at h
  exact head_dropWhile_false _ _ _ h

/-- A string whose ends are free of whitespace is untouched by trimming. -/
theorem jsTrim_of_ends {l : List Char}
    (h1 : ∀ c, l.head? = some c → isJsWs c = false)
    (h2 : ∀ c, l.getLast? = some c → isJsWs c = false) : jsTrim l = l := by
  unfold jsTrim
  have hd : l.dropWhile isJsWs = l := by
    cases l with
    | nil => simp
    | cons a as => rw [List.dropWhile_cons, if_neg (by simp [h1 a rfl])]
  rw [hd]
  have hr : l.reverse.dropWhile isJsWs = l.reverse := by
    cases hrl : l.reverse with
    | nil => simp
    | cons a as =>
      have ha : l.getLast? = some a := by
        rw [← List.head?_reverse, hrl]
        rfl
      rw [List.dropWhile_cons, if_neg (by simp [h2 a ha])]
  rw [hr, List.reverse_reverse]

/-- Trimming is idempotent. -/
theorem jsTrim_idem (l : List Char) : jsTrim (jsTrim l) = jsTrim l :=
  jsTrim_of_ends (fun _ h => jsTrim_head h) (fun _ h => jsTrim_last h)

/-- Validity facts extracted from the host/path checks shared by both scheme
branches of the URL model. -/
theorem parseUrlBody_valid {sec : Bool} {rest : List Char} {u : Url}
    (h : (if (rest.takeWhile (fun c => c ≠ '/')).isEmpty then none
          else if (rest.takeWhile (fun c => c ≠ '/')).all isHostChar &&
              (if (rest.dropWhile (fun c => c ≠ '/')).isEmpty then [ '/' ]
               else rest.dropWhile (fun c => c ≠ '/')).all isPathChar then
            some (⟨sec, rest.takeWhile (fun c => c ≠ '/'),
              if (rest.dropWhile (fun c => c ≠ '/')).isEmpty then [ '/' ]
              else rest.dropWhile (fun c => c ≠ '/')⟩ : Url)
          else none) = some u) :
    u.host ≠ [] ∧ u.host.all isHostChar = true ∧ u.path.all isPathChar = true ∧
      u.path.head? = some '/' := by
  by_cases h1 : (rest.takeWhile (fun c => c ≠ '/')).isEmpty = true
  · rw [if_pos h1] at h
    exact absurd h (by simp)
  · rw [if_neg h1] at h
    by_cases hv : ((rest.takeWhile (fun c => c ≠ '/')).all isHostChar &&
        (if (rest.dropWhile (fun c => c ≠ '/')).isEmpty then [ '/' ]
         else rest.dropWhile (fun c => c ≠ '/')).all isPathChar) = true
    · rw [if_pos hv, Option.some_inj] at h
      rw [Bool.and_eq_true] at hv
      have hu : u.host = rest.takeWhile (fun c => c ≠ '/') ∧
          u.path = (if (rest.dropWhile (fun c => c ≠ '/')).isEmpty then [ '/' ]
            else rest.dropWhile (fun c => c ≠ '/')) := by
        rw [← h]
        exact ⟨rfl, rfl⟩
      refine ⟨?_, ?_, ?_, ?_⟩
      · rw [hu.1]
        intro h0
        rw [h0] at h1
        exact h1 rfl
      · rw [hu.1]
        exact hv.1
      · rw [hu.2]
        exact hv.2
      · rw [hu.2]
        by_cases h2 : (rest.dropWhile (fun c => c ≠ '/')).isEmpty = true
        · rw [if_pos h2]
          rfl
        · rw [if_neg h2]
          have h3 : rest.dropWhile (fun c => c ≠ '/') ≠ [] := by
            intro h0
            rw [h0] at h2
            exact h2 rfl
          obtain ⟨a, t, ha⟩ := List.exists_cons_of_ne_nil h3
          have hc := head_dropWhile_false _ rest a (by rw [ha]; rfl)
          rw [ha]
          have ha2 : a = '/' := by simpa using hc
          rw [ha2]
          rfl
    · rw [if_neg hv] at h
      exact absurd h (by simp)

/-- Any URL accepted by the URL model has a non-empty validated host, a
validated path, and a path beginning with a slash. -/
theorem parseUrl_valid {s : List Char} {u : Url} (h : parseUrl s = some u) :
    u.host ≠ [] ∧ u.host.all isHostChar = true ∧ u.path.all isPathChar = true ∧
      u.path.head? = some '/' := by
  unfold parseUrl at h
  by_cases hs1 : ciStarts (chars ("https://")) s = true
  · rw [if_pos hs1] at h
    exact parseUrlBody_valid h
  · rw [if_neg hs1] at h
    by_cases hs2 : ciStarts (chars ("http://")) s = true
    · rw [if_pos hs2] at h
      exact parseUrlBody_valid h
    · rw [if_neg hs2] at h
      exact absurd h (by simp)

/-- Every character of a joined list is the separator or comes from one of
the pieces. -/
theorem mem_joinChar {sep : Char} {L : List (List Char)} {c : Char}
    (h : c ∈ joinChar sep L) : c = sep ∨ ∃ l ∈ L, c ∈ l := by
  induction L with
  | nil => simp [joinChar] at h
  | cons l L' ih =>
    cases L' with
    | nil => exact Or.inr ⟨l, List.mem_cons_self _ _, h⟩
    | cons l2 t =>
      have hj : joinChar sep (l :: l2 :: t) = l ++ sep :: joinChar sep (l2 :: t) := rfl
      rw [hj] at h
      rcases List.mem_append.mp h with h1 | h1
      · exact Or.inr ⟨l, List.mem_cons_self _ _, h1⟩
      · rcases List.mem_cons.mp h1 with h2 | h2
        · exact Or.inl h2
        · rcases ih h2 with h3 | ⟨x, hx1, hx2⟩
          · exact Or.inl h3
          · exact Or.inr ⟨x, List.mem_cons.mpr (Or.inr hx1), hx2⟩

/-- Every character of a split piece comes from the original string. -/
theorem mem_splitChar_subset {sep : Char} {x : List Char} : ∀ {l : List Char},
    l ∈ splitChar sep x → ∀ c ∈ l, c ∈ x := by
  induction x with
  | nil =>
    intro l hl
    simp [splitChar] at hl
    simp [hl]
  | cons a y ih =>
    intro l hl
    cases h : splitChar sep y with
    | nil => exact absurd h (splitChar_ne_nil sep y)
    | cons hd tl =>
      rw [splitChar, h] at hl
      have hl2 : l ∈ (if a = sep then [] :: hd :: tl else (a :: hd) :: tl) := hl
      by_cases hc : a = sep
      · rw [if_pos hc] at hl2
        intro c hcl
        rcases List.mem_cons.mp hl2 with h1 | h1
        · rw [h1] at hcl
          simp at hcl
        · exact List.mem_cons.mpr (Or.inr (ih (h ▸ h1) c hcl))
      · rw [if_neg hc] at hl2
        intro c hcl
        rcases List.mem_cons.mp hl2 with h1 | h1
        · rw [h1] at hcl
          rcases List.mem_cons.mp hcl with h2 | h2
          · exact List.mem_cons.mpr (Or.inl h2)
          · exact List.mem_cons.mpr
              (Or.inr (ih (h ▸ List.mem_cons_self hd tl) c h2))
        · exact List.mem_cons.mpr
            (Or.inr (ih (h ▸ List.mem_cons.mpr (Or.inr h1)) c hcl))

/-- The directory of a path keeps any all-characters invariant that holds of
the path and of the slash. -/
theorem dirOfPath_all {p : Char → Bool} {path : List Char} (h : path.all p = true)
    (hs : p '/' = true) : (dirOfPath path).all p = true := by
  unfold dirOfPath
  have h2 : (joinChar '/' (splitChar '/' path).dropLast).all p = true := by
    rw [List.all_eq_true]
    intro c hc
    rcases mem_joinChar hc with h1 | ⟨l, hl1, hl2⟩
    · rw [h1]; exact hs
    · have hl3 := (List.dropLast_sublist _).subset hl1
      exact List.all_eq_true.mp h c (mem_splitChar_subset hl3 c hl2)
  rw [List.all_append, h2]
  simp [hs]

/-- The directory of a rooted path is rooted. -/
theorem dirOfPath_head {path : List Char} (h : path.head? = some '/') :
    (dirOfPath path).head? = some '/' := by
  obtain ⟨r, hr⟩ : ∃ r, path = '/' :: r := by
    cases path with
    | nil => simp at h
    | cons a b =>
      rw [List.head?_cons, Option.some_inj] at h
      exact ⟨b, by rw [h]⟩
  subst hr
  unfold dirOfPath
  have hsp : splitChar '/' ('/' :: r) = [] :: splitChar '/' r := by
    cases hs : splitChar '/' r with
    | nil => exact absurd hs (splitChar_ne_nil _ _)
    | cons hd tl => simp [splitChar, hs]
  rw [hsp]
  cases hs : splitChar '/' r with
  | nil => exact absurd hs (splitChar_ne_nil _ _)
  | cons hd tl =>
    have hdl : ([] :: hd :: tl).dropLast = [] :: (hd :: tl).dropLast := rfl
    rw [hdl]
    cases hX : (hd :: tl).dropLast with
    | nil => rfl
    | cons x1 xs =>
      have hj : joinChar '/' ([] :: x1 :: xs) = [] ++ '/' :: joinChar '/' (x1 :: xs) := rfl
      rw [hj]
      rfl

/-- The base computed from a parsable URL parses again: same scheme and host,
path replaced by its directory. -/
theorem getBaseUrl_parses {url : List Char} {u : Url} (h : parseUrl url = some u) :
    parseUrl (getBaseUrl url) = some ⟨u.secure, u.host, dirOfPath u.path⟩ := by
  obtain ⟨hh0, hh, hp, hph⟩ := parseUrl_valid h
  have hslash : ∃ rest, dirOfPath u.path = '/' :: rest := by
    have hd := dirOfPath_head hph
    cases hdp : dirOfPath u.path with
    | nil => rw [hdp] at hd; simp at hd
    | cons a t =>
      rw [hdp, List.head?_cons, Option.some_inj] at hd
      exact ⟨t, by rw [hd]⟩
  have hdall : (dirOfPath u.path).all isPathChar = true :=
    dirOfPath_all hp (by decide)
  unfold getBaseUrl
  rw [h]
  exact parseUrl_origin_path u.secure u.host (dirOfPath u.path) hh0 hh hslash hdall

/-- The origin of any URL in the model starts with the letter h. -/
theorem urlOrigin_head (u : Url) : ∃ z, urlOrigin u = 'h' :: z := by
  unfold urlOrigin
  cases hs : u.secure
  · refine ⟨chars ("ttp://") ++ u.host, ?_⟩
    rw [if_neg (by simp), show chars ("http://") = 'h' :: chars ("ttp://") from by decide]
    rfl
  · refine ⟨chars ("ttps://") ++ u.host, ?_⟩
    rw [if_pos rfl, show chars ("https://") = 'h' :: chars ("ttps://") from by decide]
    rfl

/-- An all-characters invariant of both schemes and of the host holds of the
origin. -/
theorem urlOrigin_all {p : Char → Bool} (u : Url)
    (hsch : (chars ("https://")).all p = true ∧ (chars ("http://")).all p = true)
    (hhost : u.host.all p = true) : (urlOrigin u).all p = true := by
  unfold urlOrigin
  cases hs : u.secure <;> simp [List.all_append, hsch.1, hsch.2, hhost]

/-- Anything beginning with an origin matches the absolute http(s) test. -/
theorem matchesHttpAbs_origin (b : Url) (x : List Char) :
    matchesHttpAbs (urlOrigin b ++ x) = true := by
  unfold matchesHttpAbs urlOrigin
  cases hs : b.secure <;> simp [List.append_assoc, ciStarts_self_append]

/-- Against a parsable base, the resolver always produces an absolute http(s)
URL. -/
theorem resolveUrl_abs {base : List Char} {b : Url} (hb : parseUrl base = some b)
    (rel : List Char) : matchesHttpAbs (resolveUrl base rel) = true := by
  unfold resolveUrl
  by_cases h1 : matchesHttpAbs rel = true
  · rw [if_pos h1]
    exact h1
  · rw [if_neg h1, hb]
    show matchesHttpAbs (if rel.head? = some '/' then urlOrigin b ++ rel
      else urlOrigin b ++ dirOfPath b.path ++ rel) = true
    by_cases h2 : rel.head? = some '/'
    · rw [if_pos h2]
      exact matchesHttpAbs_origin b rel
    · rw [if_neg h2, List.append_assoc]
      exact matchesHttpAbs_origin b _

/-- Against a parsable base, resolving a non-empty reference is non-empty. -/
theorem resolveUrl_ne_nil {base : List Char} {b : Url} (hb : parseUrl base = some b)
    {rel : List Char} (hrel : rel ≠ []) : resolveUrl base rel ≠ [] := by
  unfold resolveUrl
  obtain ⟨z, hz⟩ := urlOrigin_head b
  by_cases h1 : matchesHttpAbs rel = true
  · rw [if_pos h1]
    exact hrel
  · rw [if_neg h1, hb]
    show (if rel.head? = some '/' then urlOrigin b ++ rel
      else urlOrigin b ++ dirOfPath b.path ++ rel) ≠ []
    by_cases h2 : rel.head? = some '/'
    · rw [if_pos h2]
      exact List.append_ne_nil_of_left_ne_nil (by rw [hz]; simp) _
    · rw [if_neg h2]
      exact List.append_ne_nil_of_left_ne_nil
        (List.append_ne_nil_of_left_ne_nil (by rw [hz]; simp) _) _

/-- Resolution against a parsable base preserves any all-characters invariant
that holds of the schemes, of validated host and path characters, and of the
reference. -/
theorem resolveUrl_all {p : Char → Bool} {base rel : List Char} {b : Url}
    (hb : parseUrl base = some b)
    (hsch : (chars ("https://")).all p = true ∧ (chars ("http://")).all p = true)
    (hhost : ∀ c, isHostChar c = true → p c = true)
    (hpath : ∀ c, isPathChar c = true → p c = true)
    (hrel : rel.all p = true) : (resolveUrl base rel).all p = true := by
  obtain ⟨hh0, hh, hp, hph⟩ := parseUrl_valid hb
  have hhostall : b.host.all p = true := by
    rw [List.all_eq_true] at hh ⊢
    exact fun c hc => hhost c (hh c hc)
  have horig := urlOrigin_all b hsch hhostall
  have hpathall : b.path.all p = true := by
    rw [List.all_eq_true] at hp ⊢
    exact fun c hc => hpath c (hp c hc)
  have hdir : (dirOfPath b.path).all p = true :=
    dirOfPath_all hpathall (hpath '/' (by decide))
  unfold resolveUrl
  by_cases h1 : matchesHttpAbs rel = true
  · rw [if_pos h1]
    exact hrel
  · rw [if_neg h1, hb]
    show (if rel.head? = some '/' then urlOrigin b ++ rel
      else urlOrigin b ++ dirOfPath b.path ++ rel).all p = true
    by_cases h2 : rel.head? = some '/'
    · rw [if_pos h2]
      simp [List.all_append, horig, hrel]
    · rw [if_neg h2]
      simp [List.all_append, horig, hdir, hrel]

/-- An absolute http(s) URL is non-empty and starts with a letter that is
neither a comment marker nor whitespace. -/
theorem matchesHttpAbs_head {x : List Char} (h : matchesHttpAbs x = true) :
    ∃ c z, x = c :: z ∧ c ≠ '#' ∧ isJsWs c = false := by
  cases x with
  | nil => exact absurd h (by decide)
  | cons c z =>
    have hc : c.toLower = 'h' := by
      unfold matchesHttpAbs at h
      rw [Bool.or_eq_true] at h
      rcases h with h1 | h1
      · rw [show chars ("http://") = 'h' :: chars ("ttp://") from by decide] at h1
        rw [ciStarts, Bool.and_eq_true] at h1
        have := h1.1
        simp only [decide_eq_true_eq] at this
        rw [← this]
        rfl
      · rw [show chars ("https://") = 'h' :: chars ("ttps://") from by decide] at h1
        rw [ciStarts, Bool.and_eq_true] at h1
        have := h1.1
        simp only [decide_eq_true_eq] at this
        rw [← this]
        rfl
    refine ⟨c, z, rfl, ?_, ?_⟩
    · intro he
      rw [he] at hc
      exact absurd hc (by decide)
    · by_contra hw
      rw [Bool.not_eq_false] at hw
      have h6 : ((((c = ' ' ∨ c = '\t') ∨ c = '\n') ∨ c = '\r') ∨ c = '\x0b') ∨
          c = '\x0c' := by
        simpa [isJsWs] using hw
      rcases h6 with ((((h|h)|h)|h)|h)|h <;> rw [h] at hc <;> exact absurd hc (by decide)

/-- A successful URI-attribute match decomposes its input: the pattern text,
a non-empty quote-free capture, and the closing quote followed by the rest. -/
theorem matchUriAt_eq {l cap rest : List Char}
    (h : matchUriAt l = some (cap, rest)) :
    l = chars ("URI=\"") ++ cap ++ '"' :: rest ∧ cap ≠ [] ∧
      cap.all (fun c => c ≠ '"') = true := by
  unfold matchUriAt at h
  by_cases hp : (chars ("URI=\"")).isPrefixOf l = true
  · rw [if_pos hp] at h
    have h2 : (match (l.drop 5).takeWhile (fun c => c ≠ '"'),
        (l.drop 5).dropWhile (fun c => c ≠ '"') with
      | _ :: _, _ :: rest2 => some ((l.drop 5).takeWhile (fun c => c ≠ '"'), rest2)
      | _, _ => none) = some (cap, rest) := h
    cases hcap : (l.drop 5).takeWhile (fun c => c ≠ '"') with
    | nil =>
      rw [hcap] at h2
      exact absurd h2 (by simp)
    | cons c1 cs1 =>
      cases hdrop : (l.drop 5).dropWhile (fun c => c ≠ '"') with
      | nil =>
        rw [hcap, hdrop] at h2
        exact absurd h2 (by simp)
      | cons d ds =>
        rw [hcap, hdrop] at h2
        have h3 : some ((c1 :: cs1 : List Char), ds) = some (cap, rest) := h2
        rw [Option.some_inj, Prod.mk.injEq] at h3
        have hd : d = '"' := by
          have := head_dropWhile_false (fun c => c ≠ '"') (l.drop 5) d
            (by rw [hdrop]; rfl)
          simpa using this
        rw [List.isPrefixOf_iff_prefix] at hp
        obtain ⟨t, ht⟩ := hp
        have hdt : l.drop 5 = t := by
          rw [← ht, show (5 : ℕ) = (chars ("URI=\"")).length from by decide]
          exact List.drop_left _ _
        refine ⟨?_, ?_, ?_⟩
        · rw [← ht, List.append_assoc]
          congr 1
          rw [← hdt, ← List.takeWhile_append_dropWhile (fun c => c ≠ '"') (l.drop 5),
            hcap, hdrop, hd, h3.1, h3.2]
        · rw [← h3.1]
          simp
        · rw [← h3.1, ← hcap]
          rw [List.all_eq_true]
          intro x hx
          have h10 := List.mem_takeWhile_imp hx
          simpa using h10
  · rw [if_neg hp] at h
    exact absurd h (by simp)

/-- A successful first-match split of a line decomposes it into the text
before the match, the literal pattern, the non-empty quote-free capture, the
closing quote and the rest. -/
theorem uriAttrSplit_eq : ∀ {line pre cap rest : List Char},
    uriAttrSplit line = some (pre, cap, rest) →
    line = pre ++ chars ("URI=\"") ++ cap ++ '"' :: rest ∧ cap ≠ [] ∧
      cap.all (fun c => c ≠ '"') = true := by
  intro line
  induction line with
  | nil => intro pre cap rest h; simp [uriAttrSplit] at h
  | cons c cs ih =>
    intro pre cap rest h
    rw [uriAttrSplit] at h
    cases hm : matchUriAt (c :: cs) with
    | some p1 =>
      obtain ⟨cap1, rest1⟩ := p1
      rw [hm] at h
      have h2 : some (([] : List Char), cap1, rest1) = some (pre, cap, rest) := h
      rw [Option.some_inj, Prod.mk.injEq, Prod.mk.injEq] at h2
      obtain ⟨hpre, hcap, hrest⟩ := h2
      obtain ⟨heq, hne, hall⟩ := matchUriAt_eq hm
      rw [← hpre, ← hcap, ← hrest]
      exact ⟨by rw [List.nil_append, heq], hne, hall⟩
    | none =>
      rw [hm] at h
      cases hs : uriAttrSplit cs with
      | none =>
        rw [hs] at h
        exact absurd h (by simp)
      | some p2 =>
        obtain ⟨pre2, cap2, rest2⟩ := p2
        rw [hs] at h
        have h2 : some ((c :: pre2 : List Char), cap2, rest2) = some (pre, cap, rest) := h
        rw [Option.some_inj, Prod.mk.injEq, Prod.mk.injEq] at h2
        obtain ⟨hpre, hcap, hrest⟩ := h2
        obtain ⟨heq, hne, hall⟩ := ih hs
        rw [← hpre, ← hcap, ← hrest]
        refine ⟨?_, hne, hall⟩
        rw [List.cons_append, List.cons_append, List.cons_append, heq]

/-- A failed URI-attribute match at the head stays failed when the text
beyond the first five characters after the prefix region is exchanged, as
long as a closing quote remains available on both sides. -/
theorem matchUriAt_none_transfer {P X Y : List Char} (hP : 5 < P.length)
    (hX : '"' ∈ X) (hY : '"' ∈ Y)
    (h : matchUriAt (P ++ X) = none) : matchUriAt (P ++ Y) = none := by
  have h5 : (chars ("URI=\"")).length ≤ P.length := by
    rw [show (chars ("URI=\"")).length = 5 from by decide]
    omega
  have hpreX : (chars ("URI=\"")).isPrefixOf (P ++ X) = (chars ("URI=\"")).isPrefixOf P :=
    isPrefixOf_append_eq _ P X h5
  have hpreY : (chars ("URI=\"")).isPrefixOf (P ++ Y) = (chars ("URI=\"")).isPrefixOf P :=
    isPrefixOf_append_eq _ P Y h5
  unfold matchUriAt at h ⊢
  by_cases hp : (chars ("URI=\"")).isPrefixOf P = true
  · rw [hpreX, if_pos hp] at h
    rw [hpreY, if_pos hp]
    obtain ⟨d, D, hdD⟩ : ∃ d D, P.drop 5 = d :: D := by
      apply List.exists_cons_of_ne_nil
      intro h0
      have := List.length_drop 5 P
      rw [h0] at this
      simp at this
      omega
    have hdropX : (P ++ X).drop 5 = d :: (D ++ X) := by
      rw [List.drop_append_of_le_length (by omega), hdD]
      rfl
    have hdropY : (P ++ Y).drop 5 = d :: (D ++ Y) := by
      rw [List.drop_append_of_le_length (by omega), hdD]
      rfl
    by_cases hd : d = '"'
    · have htwY : ((P ++ Y).drop 5).takeWhile (fun c => c ≠ '"') = [] := by
        rw [hdropY, List.takeWhile_cons, if_neg (by simp [hd])]
      show (match ((P ++ Y).drop 5).takeWhile (fun c => c ≠ '"'),
          ((P ++ Y).drop 5).dropWhile (fun c => c ≠ '"') with
        | _ :: _, _ :: rest2 =>
          some (((P ++ Y).drop 5).takeWhile (fun c => c ≠ '"'), rest2)
        | _, _ => none) = none
      rw [htwY]
    · exfalso
      have h2 : (match ((P ++ X).drop 5).takeWhile (fun c => c ≠ '"'),
          ((P ++ X).drop 5).dropWhile (fun c => c ≠ '"') with
        | _ :: _, _ :: rest2 =>
          some (((P ++ X).drop 5).takeWhile (fun c => c ≠ '"'), rest2)
        | _, _ => none) = none := h
      have htwX : ((P ++ X).drop 5).takeWhile (fun c => c ≠ '"') =
          d :: ((D ++ X).takeWhile (fun c => c ≠ '"')) := by
        rw [hdropX, List.takeWhile_cons, if_pos (by simp [hd])]
      have hne : ((P ++ X).drop 5).dropWhile (fun c => c ≠ '"') ≠ [] := by
        rw [Ne, List.dropWhile_eq_nil_iff]
        intro hall
        have h9 := hall '"' (by
          rw [hdropX]
          exact List.mem_cons.mpr (Or.inr (List.mem_append.mpr (Or.inr hX))))
        simp at h9
      obtain ⟨q, R, hqR⟩ := List.exists_cons_of_ne_nil hne
      rw [htwX, hqR] at h2
      exact absurd h2 (by simp)
  · rw [hpreY, if_neg hp]

/-- Substituting a non-empty quote-free capture into a successful split
yields the split with the new capture: the text before the match admits no
earlier match. -/
theorem uriAttrSplit_replace : ∀ (pre : List Char) {cap rest v : List Char},
    uriAttrSplit (pre ++ chars ("URI=\"") ++ cap ++ '"' :: rest) = some (pre, cap, rest) →
    v ≠ [] → v.all (fun c => c ≠ '"') = true →
    uriAttrSplit (pre ++ chars ("URI=\"") ++ v ++ '"' :: rest) = some (pre, v, rest) := by
  intro pre
  induction pre with
  | nil =>
    intro cap rest v _ hv1 hv2
    have hm : matchUriAt (chars ("URI=\"") ++ (v ++ '"' :: rest)) = some (v, rest) := by
      unfold matchUriAt
      rw [if_pos (isPrefixOf_append_self _ _)]
      have hdrop : (chars ("URI=\"") ++ (v ++ '"' :: rest)).drop 5 = v ++ '"' :: rest := by
        conv_lhs => rw [show (5 : ℕ) = (chars ("URI=\"")).length from by decide]
        exact List.drop_left _ _
      have hsplit := takeWhile_dropWhile_append (p := fun c => c ≠ '"') v ('"' :: rest)
        hv2 (fun c r hcr => by cases hcr; simp)
      show (match (chars ("URI=\"") ++ (v ++ '"' :: rest)).drop 5
            |>.takeWhile (fun c => c ≠ '"'),
          (chars ("URI=\"") ++ (v ++ '"' :: rest)).drop 5
            |>.dropWhile (fun c => c ≠ '"') with
        | _ :: _, _ :: rest2 =>
          some ((chars ("URI=\"") ++ (v ++ '"' :: rest)).drop 5
            |>.takeWhile (fun c => c ≠ '"'), rest2)
        | _, _ => none) = some (v, rest)
      rw [hdrop, hsplit.1, hsplit.2]
      obtain ⟨v1, vs, hv⟩ := List.exists_cons_of_ne_nil hv1
      rw [hv]
    rw [List.nil_append, List.append_assoc]
    rw [show chars ("URI=\"") = 'U' :: chars ("RI=\"") from by decide] at hm ⊢
    rw [List.cons_append] at hm ⊢
    rw [uriAttrSplit, hm]
  | cons a pre' ih =>
    intro cap rest v hpre hv1 hv2
    have hshape : (a :: pre') ++ chars ("URI=\"") ++ cap ++ '"' :: rest =
        a :: (pre' ++ chars ("URI=\"") ++ cap ++ '"' :: rest) := by simp
    rw [hshape, uriAttrSplit] at hpre
    cases hm : matchUriAt (a :: (pre' ++ chars ("URI=\"") ++ cap ++ '"' :: rest)) with
    | some p1 =>
      obtain ⟨c1, r1⟩ := p1
      rw [hm] at hpre
      exact absurd hpre (by simp)
    | none =>
      rw [hm] at hpre
      cases hs : uriAttrSplit (pre' ++ chars ("URI=\"") ++ cap ++ '"' :: rest) with
      | none =>
        rw [hs] at hpre
        exact absurd hpre (by simp)
      | some p2 =>
        obtain ⟨pre2, cap2, rest2⟩ := p2
        rw [hs] at hpre
        have h2 : some ((a :: pre2 : List Char), cap2, rest2) =
            some (a :: pre', cap, rest) := hpre
        rw [Option.some_inj, Prod.mk.injEq, Prod.mk.injEq] at h2
        have hpe : pre2 = pre' := by
          have := h2.1
          simpa using this
        have hsin : uriAttrSplit (pre' ++ chars ("URI=\"") ++ cap ++ '"' :: rest) =
            some (pre', cap, rest) := by
          rw [hs, hpe, h2.2.1, h2.2.2]
        have hIH := ih hsin hv1 hv2
        have hmv : matchUriAt (a :: (pre' ++ chars ("URI=\"") ++ v ++ '"' :: rest)) =
            none := by
          have hXmem : '"' ∈ cap ++ '"' :: rest :=
            List.mem_append.mpr (Or.inr (List.mem_cons_self _ _))
          have hYmem : '"' ∈ v ++ '"' :: rest :=
            List.mem_append.mpr (Or.inr (List.mem_cons_self _ _))
          have hlen : 5 < (a :: (pre' ++ chars ("URI=\""))).length := by
            simp [List.length_append]
            rw [show (chars ("URI=\"")).length = 5 from by decide]
            omega
          have hmX : matchUriAt ((a :: (pre' ++ chars ("URI=\""))) ++
              (cap ++ '"' :: rest)) = none := by
            rw [show (a :: (pre' ++ chars ("URI=\""))) ++ (cap ++ '"' :: rest) =
              a :: (pre' ++ chars ("URI=\"") ++ cap ++ '"' :: rest) from by simp]
            exact hm
          have := matchUriAt_none_transfer hlen hXmem hYmem hmX
          rw [show (a :: (pre' ++ chars ("URI=\""))) ++ (v ++ '"' :: rest) =
            a :: (pre' ++ chars ("URI=\"") ++ v ++ '"' :: rest) from by simp] at this
          exact this
        have hshape2 : (a :: pre') ++ chars ("URI=\"") ++ v ++ '"' :: rest =
            a :: (pre' ++ chars ("URI=\"") ++ v ++ '"' :: rest) := by simp
        rw [hshape2, uriAttrSplit, hmv, hIH]

/-- When a line starts with a tag containing no capital U, the text before
any URI-attribute match still starts with that tag. -/
theorem uriAttrSplit_keeps_tag {tag ln pre cap rest : List Char}
    (htag : tag.isPrefixOf ln = true)
    (heq : uriAttrSplit ln = some (pre, cap, rest))
    (hU : ∀ i (h : i < tag.length), tag.get ⟨i, h⟩ ≠ 'U') :
    tag.isPrefixOf pre = true := by
  obtain ⟨hl, _, _⟩ := uriAttrSplit_eq heq
  by_cases hlen : tag.length ≤ pre.length
  · rw [List.isPrefixOf_iff_prefix] at htag ⊢
    have hpre : pre <+: ln := by
      rw [hl, List.append_assoc, List.append_assoc]
      exact List.prefix_append pre _
    exact List.prefix_of_prefix_length_le htag hpre hlen
  · exfalso
    push_neg at hlen
    have hU1 : ln[pre.length]? = some 'U' := by
      rw [hl, List.append_assoc, List.append_assoc,
        List.getElem?_append_right (le_refl _), Nat.sub_self,
        show chars ("URI=\"") ++ (cap ++ '"' :: rest) =
          'U' :: (chars ("RI=\"") ++ (cap ++ '"' :: rest)) from by
            rw [show chars ("URI=\"") = 'U' :: chars ("RI=\"") from by decide]
            rfl]
      rfl
    have hU2 : ln[pre.length]? = tag[pre.length]? := by
      rw [List.isPrefixOf_iff_prefix] at htag
      obtain ⟨t, ht⟩ := htag
      rw [← ht, List.getElem?_append_left hlen]
    rw [hU1] at hU2
    have h9 : tag[pre.length]? = some (tag.get ⟨pre.length, hlen⟩) :=
      List.getElem?_eq_getElem hlen
    rw [h9, Option.some_inj] at hU2
    exact hU (pre.length) hlen hU2.symm

/-- Rewriting the URI attribute never changes the first character of a line
that does not itself start with a capital U. -/
theorem replaceUriAttr_head {line : List Char} {c : Char} (f : List Char → List Char)
    (hc : line.head? = some c) (hne : c ≠ 'U') :
    (replaceUriAttr line f).head? = some c := by
  unfold replaceUriAttr
  cases hs : uriAttrSplit line with
  | none => exact hc
  | some p =>
    obtain ⟨pre, cap, rest⟩ := p
    obtain ⟨hl, _, _⟩ := uriAttrSplit_eq hs
    cases pre with
    | nil =>
      exfalso
      rw [hl] at hc
      rw [show ([] : List Char) ++ chars ("URI=\"") ++ cap ++ '"' :: rest =
        'U' :: (chars ("RI=\"") ++ (cap ++ '"' :: rest)) from by
          rw [show chars ("URI=\"") = 'U' :: chars ("RI=\"") from by decide]
          simp, List.head?_cons, Option.some_inj] at hc
      exact hne hc.symm
    | cons a pre2 =>
      have hca : a = c := by
        rw [hl] at hc
        rw [show (a :: pre2) ++ chars ("URI=\"") ++ cap ++ '"' :: rest =
          a :: (pre2 ++ chars ("URI=\"") ++ cap ++ '"' :: rest) from by simp,
          List.head?_cons, Option.some_inj] at hc
        exact hc
      show ((a :: pre2) ++ chars ("URI=\"") ++ f cap ++ [ '"' ] ++ rest).head? = some c
      rw [show (a :: pre2) ++ chars ("URI=\"") ++ f cap ++ [ '"' ] ++ rest =
        a :: (pre2 ++ chars ("URI=\"") ++ f cap ++ [ '"' ] ++ rest) from by simp,
        List.head?_cons, hca]

/-- Unfolding of the rewriter on the empty line list. -/
theorem rewriteLines_nil (cfg : Config) (baseUrl : List Char) (flag : Bool) :
    rewriteLines cfg baseUrl [] flag = [] := rfl

/-- One step of the rewriter line loop, with the trimmed line written out. -/
theorem rewriteLines_cons (cfg : Config) (baseUrl l : List Char)
    (ls : List (List Char)) (flag : Bool) :
    rewriteLines cfg baseUrl (l :: ls) flag =
      (if (jsTrim l).isEmpty then rewriteLines cfg baseUrl ls flag
       else if cfg.filterDiscontinuity ∧ jsTrim l = discTag then
         rewriteLines cfg baseUrl ls flag
       else if keyTag.isPrefixOf (jsTrim l) then
         processKeyLine cfg baseUrl (jsTrim l) :: rewriteLines cfg baseUrl ls flag
       else if mapTag.isPrefixOf (jsTrim l) then
         processMapLine cfg baseUrl (jsTrim l) :: rewriteLines cfg baseUrl ls flag
       else if extinfTagRw.isPrefixOf (jsTrim l) then
         jsTrim l :: rewriteLines cfg baseUrl ls true
       else if flag ∧ ¬ hashTag.isPrefixOf (jsTrim l) then
         proxyTsUrl cfg (resolveUrl baseUrl (jsTrim l)) :: rewriteLines cfg baseUrl ls false
       else jsTrim l :: rewriteLines cfg baseUrl ls flag) := rfl

/-- The map-line rewrite is the same substitution as the key-line rewrite. -/
theorem processMapLine_eq_key : processMapLine = processKeyLine := rfl

/-- With an empty segment proxy the wrapper is the identity. -/
theorem proxyTsUrl_empty (cfg : Config) (hpx : cfg.proxyTs = []) (u : List Char) :
    proxyTsUrl cfg u = u := by
  unfold proxyTsUrl
  rw [hpx]
  rfl

/-- With a configured segment proxy the wrapper prepends the proxy base. -/
theorem proxyTsUrl_shape (cfg : Config) (hpx : cfg.proxyTs ≠ []) (u : List Char) :
    ∃ z, proxyTsUrl cfg u = cfg.proxyTs ++ z := by
  unfold proxyTsUrl
  rw [if_neg (by simp [List.isEmpty_iff, hpx])]
  by_cases h2 : cfg.proxyTsEncode = true
  · exact ⟨encodeUriComp u, by rw [if_pos h2]⟩
  · exact ⟨u, by rw [if_neg h2]⟩

/-- The wrapper of a non-empty URL is non-empty. -/
theorem proxyTsUrl_ne_nil (cfg : Config) {u : List Char} (hu : u ≠ []) :
    proxyTsUrl cfg u ≠ [] := by
  unfold proxyTsUrl
  by_cases h1 : cfg.proxyTs.isEmpty = true
  · rw [if_pos h1]
    exact hu
  · rw [if_neg h1]
    have hne : cfg.proxyTs ≠ [] := by simpa [List.isEmpty_iff] using h1
    by_cases h2 : cfg.proxyTsEncode = true
    · rw [if_pos h2]
      exact List.append_ne_nil_of_left_ne_nil hne _
    · rw [if_neg h2]
      exact List.append_ne_nil_of_left_ne_nil hne _

/-- Hexadecimal digits are never a newline. -/
theorem hexDigit_ne_nl {k : ℕ} (hk : k < 16) : hexDigit k ≠ '\n' := by
  interval_cases k <;> decide

/-- A percent escape of a byte contains no newline. -/
theorem byteHex_no_nl {b : ℕ} (hb : b < 256) :
    (byteHex b).all (fun c => c ≠ '\n') = true := by
  have h1 : b / 16 < 16 := by omega
  have h2 : b % 16 < 16 := Nat.mod_lt _ (by omega)
  unfold byteHex
  simp only [List.all_cons, List.all_nil, Bool.and_eq_true, decide_eq_true_eq, Bool.and_true]
  exact ⟨by decide, hexDigit_ne_nl h1, hexDigit_ne_nl h2⟩

/-- Component encoding never emits a newline. -/
theorem encodeUriComp_no_nl (l : List Char) :
    (encodeUriComp l).all (fun c => c ≠ '\n') = true := by
  unfold encodeUriComp
  rw [List.all_eq_true]
  intro x hx
  rw [List.mem_flatten] at hx
  obtain ⟨sub, hsub, hxsub⟩ := hx
  rw [List.mem_map] at hsub
  obtain ⟨c, _, hceq⟩ := hsub
  by_cases hu : isUnreservedChar c = true
  · rw [if_pos hu] at hceq
    rw [← hceq] at hxsub
    simp only [List.mem_singleton] at hxsub
    simp only [decide_eq_true_eq]
    intro h0
    rw [hxsub] at h0
    rw [h0] at hu
    exact absurd hu (by decide)
  · rw [if_neg hu] at hceq
    rw [← hceq, List.mem_flatten] at hxsub
    obtain ⟨sub2, hsub2, hxsub2⟩ := hxsub
    rw [List.mem_map] at hsub2
    obtain ⟨byte, _, hbeq⟩ := hsub2
    rw [← hbeq] at hxsub2
    have hall := byteHex_no_nl byte.toNat_lt
    exact List.all_eq_true.mp hall x hxsub2

/-- Wrapping keeps strings free of newlines when the proxy base is. -/
theorem proxyTsUrl_no_nl {cfg : Config} (hnl : cfg.proxyTs.all (fun c => c ≠ '\n') = true)
    {u : List Char} (hu : u.all (fun c => c ≠ '\n') = true) :
    (proxyTsUrl cfg u).all (fun c => c ≠ '\n') = true := by
  unfold proxyTsUrl
  by_cases h1 : cfg.proxyTs.isEmpty = true
  · rw [if_pos h1]
    exact hu
  · rw [if_neg h1]
    by_cases h2 : cfg.proxyTsEncode = true
    · rw [if_pos h2]
      rw [List.all_append, hnl, encodeUriComp_no_nl]
      rfl
    · rw [if_neg h2]
      rw [List.all_append, hnl, hu]
      rfl

/-- Resolution against a parsable base keeps strings free of a character
rejected by both validators and both scheme literals. -/
theorem resolveUrl_keeps {base rel : List Char} {b : Url} (d : Char)
    (hb : parseUrl base = some b) (hd1 : isHostChar d = false) (hd2 : isPathChar d = false)
    (hsch : (chars ("https://")).all (fun c => c ≠ d) = true ∧
      (chars ("http://")).all (fun c => c ≠ d) = true)
    (hrel : rel.all (fun c => c ≠ d) = true) :
    (resolveUrl base rel).all (fun c => c ≠ d) = true := by
  refine resolveUrl_all hb hsch ?_ ?_ hrel
  · intro c hc
    simp only [decide_eq_true_eq]
    intro h0
    rw [h0] at hc
    rw [hc] at hd1
    exact absurd hd1 (by simp)
  · intro c hc
    simp only [decide_eq_true_eq]
    intro h0
    rw [h0] at hc
    rw [hc] at hd2
    exact absurd hd2 (by simp)

/-- Resolution keeps strings newline-free. -/
theorem resolveUrl_no_nl {base rel : List Char} {b : Url} (hb : parseUrl base = some b)
    (hrel : rel.all (fun c => c ≠ '\n') = true) :
    (resolveUrl base rel).all (fun c => c ≠ '\n') = true :=
  resolveUrl_keeps '\n' hb (by decide) (by decide) ⟨by decide, by decide⟩ hrel

/-- Resolution keeps strings quote-free. -/
theorem resolveUrl_no_quote {base rel : List Char} {b : Url} (hb : parseUrl base = some b)
    (hrel : rel.all (fun c => c ≠ '"') = true) :
    (resolveUrl base rel).all (fun c => c ≠ '"') = true :=
  resolveUrl_keeps '"' hb (by decide) (by decide) ⟨by decide, by decide⟩ hrel

/-- The key-line rewrite of a non-empty newline-free line is non-empty and
newline-free. -/
theorem processKeyLine_props (cfg : Config) {base : List Char} {b : Url}
    (hb : parseUrl base = some b) (hnl : cfg.proxyTs.all (fun c => c ≠ '\n') = true)
    {ln : List Char} (hlnl : ln.all (fun c => c ≠ '\n') = true) (hlne : ln ≠ []) :
    processKeyLine cfg base ln ≠ [] ∧
      (processKeyLine cfg base ln).all (fun c => c ≠ '\n') = true := by
  unfold processKeyLine replaceUriAttr
  cases hs : uriAttrSplit ln with
  | none => exact ⟨hlne, hlnl⟩
  | some p =>
    obtain ⟨pre, cap, rest⟩ := p
    obtain ⟨hl, hcne, hcall⟩ := uriAttrSplit_eq hs
    constructor
    · apply List.append_ne_nil_of_left_ne_nil
      apply List.append_ne_nil_of_right_ne_nil
      simp
    · have hparts : pre.all (fun c => c ≠ '\n') = true ∧
          cap.all (fun c => c ≠ '\n') = true ∧
          rest.all (fun c => c ≠ '\n') = true := by
        rw [hl] at hlnl
        simp only [List.all_append, List.all_cons, Bool.and_eq_true] at hlnl
        exact ⟨hlnl.1.1.1, hlnl.1.2, hlnl.2.2⟩
      have hfc : (proxyTsUrl cfg (resolveUrl base cap)).all (fun c => c ≠ '\n') = true :=
        proxyTsUrl_no_nl hnl (resolveUrl_no_nl hb hparts.2.1)
      have hup : (chars ("URI=\"")).all (fun c => c ≠ '\n') = true := by decide
      have hqp : ([ '"' ] : List Char).all (fun c => c ≠ '\n') = true := by decide
      show (pre ++ chars ("URI=\"") ++ proxyTsUrl cfg (resolveUrl base cap) ++
        [ '"' ] ++ rest).all (fun c => c ≠ '\n') = true
      rw [List.all_append, List.all_append, List.all_append, List.all_append,
        hparts.1, hup, hfc, hqp, hparts.2.2]
      rfl

/-- Every output line of the rewriter over newline-free input lines is
non-empty and newline-free, provided the base URL parses and the proxy base
is newline-free. -/
theorem rewriteLines_mem (cfg : Config) {base : List Char} {b : Url}
    (hb : parseUrl base = some b)
    (hnl : cfg.proxyTs.all (fun c => c ≠ '\n') = true) :
    ∀ (ls : List (List Char)) (flag : Bool) (x : List Char),
      (∀ l ∈ ls, l.all (fun c => c ≠ '\n') = true) →
      x ∈ rewriteLines cfg base ls flag →
      x ≠ [] ∧ x.all (fun c => c ≠ '\n') = true := by
  intro ls
  induction ls with
  | nil =>
    intro flag x _ hx
    rw [rewriteLines_nil] at hx
    simp at hx
  | cons l ls ih =>
    intro flag x hall hx
    have hlnl : (jsTrim l).all (fun c => c ≠ '\n') = true :=
      jsTrim_all _ _ (hall l (List.mem_cons_self _ _))
    have hallr : ∀ l' ∈ ls, l'.all (fun c => c ≠ '\n') = true :=
      fun l' h => hall l' (List.mem_cons.mpr (Or.inr h))
    rw [rewriteLines_cons] at hx
    by_cases h1 : (jsTrim l).isEmpty = true
    · rw [if_pos h1] at hx
      exact ih flag x hallr hx
    · rw [if_neg h1] at hx
      have hlne : jsTrim l ≠ [] := by simpa [List.isEmpty_iff] using h1
      by_cases h2 : cfg.filterDiscontinuity = true ∧ jsTrim l = discTag
      · rw [if_pos h2] at hx
        exact ih flag x hallr hx
      · rw [if_neg h2] at hx
        by_cases h3 : keyTag.isPrefixOf (jsTrim l) = true
        · rw [if_pos h3] at hx
          rcases List.mem_cons.mp hx with hx1 | hx1
          · rw [hx1]
            exact processKeyLine_props cfg hb hnl hlnl hlne
          · exact ih flag x hallr hx1
        · rw [if_neg h3] at hx
          by_cases h4 : mapTag.isPrefixOf (jsTrim l) = true
          · rw [if_pos h4] at hx
            rcases List.mem_cons.mp hx with hx1 | hx1
            · rw [hx1, processMapLine_eq_key]
              exact processKeyLine_props cfg hb hnl hlnl hlne
            · exact ih flag x hallr hx1
          · rw [if_neg h4] at hx
            by_cases h5 : extinfTagRw.isPrefixOf (jsTrim l) = true
            · rw [if_pos h5] at hx
              rcases List.mem_cons.mp hx with hx1 | hx1
              · rw [hx1]
                exact ⟨hlne, hlnl⟩
              · exact ih true x hallr hx1
            · rw [if_neg h5] at hx
              by_cases h6 : flag = true ∧ ¬ hashTag.isPrefixOf (jsTrim l) = true
              · rw [if_pos h6] at hx
                rcases List.mem_cons.mp hx with hx1 | hx1
                · rw [hx1]
                  exact ⟨proxyTsUrl_ne_nil cfg (resolveUrl_ne_nil hb hlne),
                    proxyTsUrl_no_nl hnl (resolveUrl_no_nl hb hlnl)⟩
                · exact ih false x hallr hx1
              · rw [if_neg h6] at hx
                rcases List.mem_cons.mp hx with hx1 | hx1
                · rw [hx1]
                  exact ⟨hlne, hlnl⟩
                · exact ih flag x hallr hx1

/-- The substitution on a line without a URI-attribute match is the
identity. -/
theorem replaceUriAttr_of_none {ln : List Char} (f : List Char → List Char)
    (hs : uriAttrSplit ln = none) : replaceUriAttr ln f = ln := by
  unfold replaceUriAttr
  rw [hs]

/-- The substitution on a line with a URI-attribute match, written out. -/
theorem replaceUriAttr_of_split {ln pre cap rest : List Char} (f : List Char → List Char)
    (hs : uriAttrSplit ln = some (pre, cap, rest)) :
    replaceUriAttr ln f = pre ++ chars ("URI=\"") ++ f cap ++ [ '"' ] ++ rest := by
  unfold replaceUriAttr
  rw [hs]

/-- An absolute reference is returned by the resolver unchanged. -/
theorem resolveUrl_of_abs {base rel : List Char} (h : matchesHttpAbs rel = true) :
    resolveUrl base rel = rel := by
  unfold resolveUrl
  rw [if_pos h]

/-- A prefix of a list is a prefix of any extension of it. -/
theorem isPrefixOf_append_weaken {t pre z : List Char} (h : t.isPrefixOf pre = true) :
    t.isPrefixOf (pre ++ z) = true := by
  rw [List.isPrefixOf_iff_prefix] at h ⊢
  exact h.trans (List.prefix_append pre z)

/-- The first character of a string is determined by any of its non-empty
prefixes. -/
theorem head_eq_of_tag {t x : List Char} {a d : Char}
    (ht : t.head? = some a) (h : t.isPrefixOf x = true) (hx : x.head? = some d) :
    d = a := by
  cases t with
  | nil => simp at ht
  | cons t1 ts =>
    cases x with
    | nil => simp at hx
    | cons x1 xs =>
      rw [List.head?_cons, Option.some_inj] at ht hx
      simp only [List.isPrefixOf, Bool.and_eq_true, beq_iff_eq] at h
      rw [← hx, ← ht]
      exact h.1.symm

/-- The key-line rewrite of a non-empty line is non-empty. -/
theorem processKeyLine_ne_nil (cfg : Config) (base : List Char) {ln : List Char}
    (hln : ln ≠ []) : processKeyLine cfg base ln ≠ [] := by
  unfold processKeyLine
  cases hs : uriAttrSplit ln with
  | none =>
    rw [replaceUriAttr_of_none _ hs]
    exact hln
  | some p =>
    obtain ⟨pre, cap, rest⟩ := p
    rw [replaceUriAttr_of_split _ hs]
    apply List.append_ne_nil_of_left_ne_nil
    apply List.append_ne_nil_of_right_ne_nil
    simp

/-- Resolution of a trimmed non-empty reference against a parsable base is
itself trimmed: its first letter is from a scheme and its last character
comes from the reference. -/
theorem resolveUrl_trim {base : List Char} {b : Url} (hb : parseUrl base = some b)
    {rel : List Char} (hrel : jsTrim rel = rel) (hrne : rel ≠ []) :
    jsTrim (resolveUrl base rel) = resolveUrl base rel := by
  apply jsTrim_of_ends
  · intro c hc
    obtain ⟨c0, z0, hxz, _, hcw⟩ := matchesHttpAbs_head (resolveUrl_abs hb rel)
    rw [hxz, List.head?_cons, Option.some_inj] at hc
    rw [← hc]
    exact hcw
  · intro c hc
    unfold resolveUrl at hc
    by_cases h1 : matchesHttpAbs rel = true
    · rw [if_pos h1] at hc
      apply jsTrim_last (l := rel)
      rw [hrel]
      exact hc
    · rw [if_neg h1, hb] at hc
      have hc2 : (if rel.head? = some '/' then urlOrigin b ++ rel
        else urlOrigin b ++ dirOfPath b.path ++ rel).getLast? = some c := hc
      by_cases h2 : rel.head? = some '/'
      · rw [if_pos h2, List.getLast?_append_of_ne_nil _ hrne] at hc2
        apply jsTrim_last (l := rel)
        rw [hrel]
        exact hc2
      · rw [if_neg h2, List.getLast?_append_of_ne_nil _ hrne] at hc2
        apply jsTrim_last (l := rel)
        rw [hrel]
        exact hc2

/-- The key-line rewrite of a line with a trimmed non-U first character and
trimmed last character is itself trimmed. -/
theorem processKeyLine_trim (cfg : Config) (base : List Char) {ln : List Char} {c0 : Char}
    (hc0 : ln.head? = some c0) (hcU : c0 ≠ 'U') (hcw : isJsWs c0 = false)
    (hlast : ∀ c, ln.getLast? = some c → isJsWs c = false) :
    jsTrim (processKeyLine cfg base ln) = processKeyLine cfg base ln := by
  apply jsTrim_of_ends
  · intro c hc
    have hh2 : (processKeyLine cfg base ln).head? = some c0 :=
      replaceUriAttr_head (fun uri => proxyTsUrl cfg (resolveUrl base uri)) hc0 hcU
    rw [hh2, Option.some_inj] at hc
    rw [← hc]
    exact hcw
  · intro c hc
    cases hs : uriAttrSplit ln with
    | none =>
      have h1 : processKeyLine cfg base ln = ln := replaceUriAttr_of_none _ hs
      rw [h1] at hc
      exact hlast c hc
    | some p =>
      obtain ⟨pre, cap, rest⟩ := p
      obtain ⟨hleq, _, _⟩ := uriAttrSplit_eq hs
      have h1 : processKeyLine cfg base ln =
          pre ++ chars ("URI=\"") ++ proxyTsUrl cfg (resolveUrl base cap) ++
            [ '"' ] ++ rest :=
        replaceUriAttr_of_split _ hs
      rw [h1] at hc
      cases rest with
      | nil =>
        rw [List.append_nil,
          List.getLast?_append_of_ne_nil _ (by simp : ([ '"' ] : List Char) ≠ []),
          show ([ '"' ] : List Char).getLast? = some '"' from rfl,
          Option.some_inj] at hc
        rw [← hc]
        decide
      | cons r1 rs =>
        rw [List.getLast?_append_of_ne_nil _ (List.cons_ne_nil r1 rs)] at hc
        apply hlast
        rw [hleq, List.getLast?_append_of_ne_nil _ (List.cons_ne_nil '"' (r1 :: rs)),
          show ('"' :: r1 :: rs : List Char) = [ '"' ] ++ (r1 :: rs) from rfl,
          List.getLast?_append_of_ne_nil _ (List.cons_ne_nil r1 rs)]
        exact hc

/-- With an empty segment proxy, rewriting a key line twice equals rewriting
it once: the substituted URI is absolute, so the second resolution is the
identity. -/
theorem processKeyLine_stable (cfg : Config) {base : List Char} {b : Url}
    (hpx : cfg.proxyTs = []) (hb : parseUrl base = some b) (ln : List Char) :
    processKeyLine cfg base (processKeyLine cfg base ln) = processKeyLine cfg base ln := by
  cases hs : uriAttrSplit ln with
  | none =>
    have h1 : processKeyLine cfg base ln = ln := replaceUriAttr_of_none _ hs
    rw [h1]
    exact h1
  | some p =>
    obtain ⟨pre, cap, rest⟩ := p
    obtain ⟨hl, hcne, hcall⟩ := uriAttrSplit_eq hs
    have hx1 : processKeyLine cfg base ln =
        pre ++ chars ("URI=\"") ++ proxyTsUrl cfg (resolveUrl base cap) ++
          [ '"' ] ++ rest :=
      replaceUriAttr_of_split _ hs
    have hw2 : proxyTsUrl cfg (resolveUrl base cap) = resolveUrl base cap :=
      proxyTsUrl_empty cfg hpx _
    have hwne : resolveUrl base cap ≠ [] := resolveUrl_ne_nil hb hcne
    have hwall : (resolveUrl base cap).all (fun c => c ≠ '"') = true :=
      resolveUrl_no_quote hb hcall
    have hsin : uriAttrSplit (pre ++ chars ("URI=\"") ++ cap ++ '"' :: rest) =
        some (pre, cap, rest) := by
      rw [← hl]
      exact hs
    have hs2 := uriAttrSplit_replace pre hsin hwne hwall
    have hxeq : pre ++ chars ("URI=\"") ++ resolveUrl base cap ++ [ '"' ] ++ rest =
        pre ++ chars ("URI=\"") ++ resolveUrl base cap ++ '"' :: rest := by simp
    have hs3 : uriAttrSplit (processKeyLine cfg base ln) =
        some (pre, resolveUrl base cap, rest) := by
      rw [hx1, hw2, hxeq]
      exact hs2
    have hfw : proxyTsUrl cfg (resolveUrl base (resolveUrl base cap)) =
        resolveUrl base cap := by
      rw [proxyTsUrl_empty cfg hpx, resolveUrl_of_abs (resolveUrl_abs hb cap)]
    calc processKeyLine cfg base (processKeyLine cfg base ln)
        = pre ++ chars ("URI=\"") ++
            proxyTsUrl cfg (resolveUrl base (resolveUrl base cap)) ++ [ '"' ] ++ rest := by
          unfold processKeyLine
          exact replaceUriAttr_of_split _ hs3
      _ = pre ++ chars ("URI=\"") ++ resolveUrl base cap ++ [ '"' ] ++ rest := by
          rw [hfw]
      _ = processKeyLine cfg base ln := by
          rw [hx1, hw2]

/-- With an empty segment proxy and a parsable base URL, the line rewriter is
idempotent: every line it emits is emitted unchanged by a second pass in the
same flag state. -/
theorem rewriteLines_idem (cfg : Config) {base : List Char} {b : Url}
    (hpx : cfg.proxyTs = []) (hb : parseUrl base = some b) :
    ∀ (ls : List (List Char)) (flag : Bool),
      rewriteLines cfg base (rewriteLines cfg base ls flag) flag =
        rewriteLines cfg base ls flag := by
  intro ls
  induction ls with
  | nil => intro flag; rfl
  | cons l ls ih =>
    intro flag
    rw [rewriteLines_cons cfg base l ls flag]
    by_cases h1 : (jsTrim l).isEmpty = true
    · rw [if_pos h1]
      exact ih flag
    · rw [if_neg h1]
      have hlne : jsTrim l ≠ [] := by simpa [List.isEmpty_iff] using h1
      obtain ⟨c0, t0, hct⟩ := List.exists_cons_of_ne_nil hlne
      have hc0 : (jsTrim l).head? = some c0 := by rw [hct]; rfl
      have hc0w : isJsWs c0 = false := jsTrim_head hc0
      have hlast : ∀ c, (jsTrim l).getLast? = some c → isJsWs c = false :=
        fun c hc => jsTrim_last hc
      have hidem : jsTrim (jsTrim l) = jsTrim l := jsTrim_idem l
      by_cases h2 : cfg.filterDiscontinuity = true ∧ jsTrim l = discTag
      · rw [if_pos h2]
        exact ih flag
      · rw [if_neg h2]
        by_cases h3 : keyTag.isPrefixOf (jsTrim l) = true
        · rw [if_pos h3]
          have hc0hash : c0 = '#' :=
            head_eq_of_tag (show keyTag.head? = some '#' from by decide) h3 hc0
          have hxtag : keyTag.isPrefixOf (processKeyLine cfg base (jsTrim l)) = true := by
            unfold processKeyLine
            cases hs : uriAttrSplit (jsTrim l) with
            | none =>
              rw [replaceUriAttr_of_none _ hs]
              exact h3
            | some p =>
              obtain ⟨pre, cap, rest⟩ := p
              have hpre := uriAttrSplit_keeps_tag h3 hs (by decide)
              rw [replaceUriAttr_of_split _ hs]
              exact isPrefixOf_append_weaken (isPrefixOf_append_weaken
                (isPrefixOf_append_weaken (isPrefixOf_append_weaken hpre)))
          have hxtrim : jsTrim (processKeyLine cfg base (jsTrim l)) =
              processKeyLine cfg base (jsTrim l) :=
            processKeyLine_trim cfg base hc0 (by rw [hc0hash]; decide) hc0w hlast
          have hxne : processKeyLine cfg base (jsTrim l) ≠ [] :=
            processKeyLine_ne_nil cfg base hlne
          rw [rewriteLines_cons, hxtrim,
            if_neg (by simpa [List.isEmpty_iff] using hxne),
            if_neg (by
              rintro ⟨_, hxd⟩
              rw [hxd] at hxtag
              exact absurd hxtag (by decide)),
            if_pos hxtag, processKeyLine_stable cfg hpx hb (jsTrim l), ih flag]
        · rw [if_neg h3]
          by_cases h4 : mapTag.isPrefixOf (jsTrim l) = true
          · rw [if_pos h4]
            have hc0hash : c0 = '#' :=
              head_eq_of_tag (show mapTag.head? = some '#' from by decide) h4 hc0
            have hxtag : mapTag.isPrefixOf (processMapLine cfg base (jsTrim l)) = true := by
              rw [processMapLine_eq_key]
              unfold processKeyLine
              cases hs : uriAttrSplit (jsTrim l) with
              | none =>
                rw [replaceUriAttr_of_none _ hs]
                exact h4
              | some p =>
                obtain ⟨pre, cap, rest⟩ := p
                have hpre := uriAttrSplit_keeps_tag h4 hs (by decide)
                rw [replaceUriAttr_of_split _ hs]
                exact isPrefixOf_append_weaken (isPrefixOf_append_weaken
                  (isPrefixOf_append_weaken (isPrefixOf_append_weaken hpre)))
            have hxtrim : jsTrim (processMapLine cfg base (jsTrim l)) =
                processMapLine cfg base (jsTrim l) := by
              rw [processMapLine_eq_key]
              exact processKeyLine_trim cfg base hc0 (by rw [hc0hash]; decide) hc0w hlast
            have hxne : processMapLine cfg base (jsTrim l) ≠ [] := by
              rw [processMapLine_eq_key]
              exact processKeyLine_ne_nil cfg base hlne
            have hxkey : keyTag.isPrefixOf (processMapLine cfg base (jsTrim l)) = false :=
              isPrefixOf_excl hxtag (by decide) (by decide)
            rw [rewriteLines_cons, hxtrim,
              if_neg (by simpa [List.isEmpty_iff] using hxne),
              if_neg (by
                rintro ⟨_, hxd⟩
                rw [hxd] at hxtag
                exact absurd hxtag (by decide)),
              if_neg (by simp [hxkey]),
              if_pos hxtag]
            rw [processMapLine_eq_key, processKeyLine_stable cfg hpx hb (jsTrim l), ih flag]
          · rw [if_neg h4]
            by_cases h5 : extinfTagRw.isPrefixOf (jsTrim l) = true
            · rw [if_pos h5]
              rw [rewriteLines_cons, hidem, if_neg h1, if_neg h2, if_neg h3, if_neg h4,
                if_pos h5, ih true]
            · rw [if_neg h5]
              by_cases h6 : flag = true ∧ ¬ hashTag.isPrefixOf (jsTrim l) = true
              · rw [if_pos h6, proxyTsUrl_empty cfg hpx]
                have habs : matchesHttpAbs (resolveUrl base (jsTrim l)) = true :=
                  resolveUrl_abs hb (jsTrim l)
                obtain ⟨ch, zh, hyz, hchh, hchw⟩ := matchesHttpAbs_head habs
                have hyhead : (resolveUrl base (jsTrim l)).head? = some ch := by
                  rw [hyz]
                  rfl
                have hytrim : jsTrim (resolveUrl base (jsTrim l)) =
                    resolveUrl base (jsTrim l) := resolveUrl_trim hb hidem hlne
                have hyne : resolveUrl base (jsTrim l) ≠ [] := resolveUrl_ne_nil hb hlne
                rw [rewriteLines_cons, hytrim,
                  if_neg (by simpa [List.isEmpty_iff] using hyne),
                  if_neg (by
                    rintro ⟨_, hyd⟩
                    rw [hyd] at hyz
                    rw [show discTag = '#' :: chars ("EXT-X-DISCONTINUITY") from by decide]
                      at hyz
                    rw [List.cons.injEq] at hyz
                    exact hchh hyz.1.symm),
                  if_neg (isPrefixOf_head_ne (t := keyTag)
                    (show keyTag.head? = some '#' from by decide) hyhead
                    (fun he => hchh (by rw [← he])) ▸ (by simp) :
                    ¬ keyTag.isPrefixOf (resolveUrl base (jsTrim l)) = true),
                  if_neg (isPrefixOf_head_ne (t := mapTag)
                    (show mapTag.head? = some '#' from by decide) hyhead
                    (fun he => hchh (by rw [← he])) ▸ (by simp) :
                    ¬ mapTag.isPrefixOf (resolveUrl base (jsTrim l)) = true),
                  if_neg (isPrefixOf_head_ne (t := extinfTagRw)
                    (show extinfTagRw.head? = some '#' from by decide) hyhead
                    (fun he => hchh (by rw [← he])) ▸ (by simp) :
                    ¬ extinfTagRw.isPrefixOf (resolveUrl base (jsTrim l)) = true),
                  if_pos (⟨h6.1, by
                    rw [isPrefixOf_head_ne (t := hashTag)
                      (show hashTag.head? = some '#' from by decide) hyhead
                      (fun he => hchh (by rw [← he]))]
                    simp⟩ : flag = true ∧
                    ¬ hashTag.isPrefixOf (resolveUrl base (jsTrim l)) = true),
                  proxyTsUrl_empty cfg hpx,
                  resolveUrl_of_abs habs, ih false]
              · rw [if_neg h6]
                rw [rewriteLines_cons, hidem, if_neg h1, if_neg h2, if_neg h3, if_neg h4,
                  if_neg h5, if_neg h6, ih flag]

/-- Claim C3, counterexample: with the shipped segment proxy, whose base is
itself an absolute https URL (so the resolver does treat proxy-wrapped URLs
as already absolute), rewriting the rewritten playlist wraps the segment URI
a second time, so the output is not byte-identical. -/
theorem c3_counterexample :
    matchesHttpAbs (proxyTsUrl c3Cfg (resolveUrl (getBaseUrl c3Url)
      (chars ("seg1.ts")))) = true ∧
    processMediaPlaylist c3Cfg c3Url (processMediaPlaylist c3Cfg c3Url c3Content) ≠
      processMediaPlaylist c3Cfg c3Url c3Content := by
  constructor
  · decide
  · decide

/-- Claim C3, amended: with an empty segment proxy (the wrapper is then the
identity) and a parsable playlist URL, the media-playlist rewrite is
idempotent: a second pass returns byte-identical text. -/
theorem c3_rewrite_idempotent (cfg : Config) (url content : List Char)
    (hpx : cfg.proxyTs = []) {p : Url} (hurl : parseUrl url = some p) :
    processMediaPlaylist cfg url (processMediaPlaylist cfg url content) =
      processMediaPlaylist cfg url content := by
  have hb := getBaseUrl_parses hurl
  unfold processMediaPlaylist
  cases hone : rewriteLines cfg (getBaseUrl url) (splitChar '\n' content) false with
  | nil =>
    rfl
  | cons o1 os =>
    have hnl : cfg.proxyTs.all (fun c => c ≠ '\n') = true := by
      rw [hpx]
      rfl
    have hprops : ∀ x ∈ (o1 :: os : List (List Char)),
        x ≠ [] ∧ x.all (fun c => c ≠ '\n') = true := by
      intro x hx
      rw [← hone] at hx
      exact rewriteLines_mem cfg hb hnl (splitChar '\n' content) false x
        (mem_splitChar_no_sep '\n' content) hx
    have hrt : splitChar '\n' (joinChar '\n' (o1 :: os)) = o1 :: os :=
      splitChar_joinChar '\n' (o1 :: os) (List.cons_ne_nil o1 os)
        (fun l hl => (hprops l hl).2)
    rw [hrt, ← hone, rewriteLines_idem cfg hpx hb (splitChar '\n' content) false]

/-- Witness for claim C3 at a concrete empty-proxy configuration, URL and
playlist: the hypotheses hold and the rewrite is idempotent there. -/
theorem c3_rewrite_idempotent_witness :
    c3CfgNoProxy.proxyTs = [] ∧
    parseUrl c3Url = some ⟨true, chars ("cdn.example.com"),
      chars ("/live/index.m3u8")⟩ ∧
    processMediaPlaylist c3CfgNoProxy c3Url
        (processMediaPlaylist c3CfgNoProxy c3Url c3Content) =
      processMediaPlaylist c3CfgNoProxy c3Url c3Content :=
  ⟨rfl, by decide, @c3_rewrite_idempotent c3CfgNoProxy c3Url c3Content rfl
    ⟨true, chars ("cdn.example.com"), chars ("/live/index.m3u8")⟩ (by decide)⟩

/-- A Boolean known to be false is not true. -/
theorem ne_true_of_eq_false {b : Bool} (h : b = false) : ¬ b = true := by
  simp [h]

/-- The rewriter only sees trimmed non-empty lines: cleaning first changes
nothing. -/
theorem rewriteLines_clean (cfg : Config) (base : List Char) :
    ∀ (ls : List (List Char)) (flag : Bool),
      rewriteLines cfg base (cleanLines ls) flag = rewriteLines cfg base ls flag := by
  intro ls
  induction ls with
  | nil => intro flag; rfl
  | cons l ls ih =>
    intro flag
    rw [rewriteLines_cons cfg base l ls flag]
    by_cases h1 : (jsTrim l).isEmpty = true
    · rw [if_pos h1]
      have hcl : cleanLines (l :: ls) = cleanLines ls := by
        unfold cleanLines
        rw [List.map_cons]
        simp [List.filter_cons, h1]
      rw [hcl, ih flag]
    · rw [if_neg h1]
      have hcl : cleanLines (l :: ls) = jsTrim l :: cleanLines ls := by
        unfold cleanLines
        rw [List.map_cons]
        simp [List.filter_cons, h1]
      rw [hcl, rewriteLines_cons, jsTrim_idem, if_neg h1]
      rw [ih flag, ih true, ih false]

/-- Over a well-shaped list of trimmed non-empty lines, with discontinuity
filtering off and a proxy base starting with the letter h, the
proxy-prefixed output lines of the rewriter are exactly the wrapped resolved
segment URIs, in order. -/
theorem rewrite_filter_map (cfg : Config) (base : List Char)
    (hd : cfg.filterDiscontinuity = false)
    (hpx : cfg.proxyTs.head? = some 'h') :
    ∀ (ls : List (List Char)),
      (∀ l ∈ ls, jsTrim l = l ∧ l ≠ []) → goodShape ls = true →
      (rewriteLines cfg base ls false).filter (fun x => cfg.proxyTs.isPrefixOf x) =
        (segmentUris ls).map (fun u => proxyTsUrl cfg (resolveUrl base u)) := by
  have hdisc : ∀ x : List Char, ¬ (cfg.filterDiscontinuity = true ∧ x = discTag) := by
    rintro x ⟨hdd, _⟩
    rw [hd] at hdd
    exact absurd hdd (by simp)
  have hpne : cfg.proxyTs ≠ [] := by
    intro h0
    rw [h0] at hpx
    simp at hpx
  suffices h : ∀ (n : ℕ) (ls : List (List Char)), ls.length ≤ n →
      (∀ l ∈ ls, jsTrim l = l ∧ l ≠ []) → goodShape ls = true →
      (rewriteLines cfg base ls false).filter (fun x => cfg.proxyTs.isPrefixOf x) =
        (segmentUris ls).map (fun u => proxyTsUrl cfg (resolveUrl base u)) by
    exact fun ls => h ls.length ls (le_refl _)
  intro n
  induction n with
  | zero =>
    intro ls hlen _ _
    have : ls = [] := List.length_eq_zero.mp (Nat.le_zero.mp hlen)
    rw [this]
    rfl
  | succ n ihn =>
    intro ls hlen hstable hgood
    cases ls with
    | nil => rfl
    | cons l ls2 =>
      obtain ⟨hlt, hlne⟩ := hstable l (List.mem_cons_self _ _)
      cases ls2 with
      | nil =>
        have hgood2 : (!extinfTagRw.isPrefixOf l && hashTag.isPrefixOf l) = true := hgood
        rw [Bool.and_eq_true, Bool.not_eq_true'] at hgood2
        obtain ⟨hnext, hhash⟩ := hgood2
        have hlhead : l.head? = some '#' := by
          cases l with
          | nil => exact absurd rfl hlne
          | cons a t =>
            have ha := head_eq_of_tag (show hashTag.head? = some '#' from by decide)
              hhash (show (a :: t).head? = some a from rfl)
            rw [List.head?_cons, ha]
        rw [rewriteLines_cons cfg base l [] false, hlt,
          if_neg (by simp [List.isEmpty_iff, hlne]),
          if_neg (hdisc l)]
        by_cases h3 : keyTag.isPrefixOf l = true
        · rw [if_pos h3, rewriteLines_nil]
          have hx : (processKeyLine cfg base l).head? = some '#' :=
            replaceUriAttr_head _ hlhead (by decide)
          simp [List.filter_cons, isPrefixOf_head_ne hpx hx (by decide), segmentUris]
        · rw [if_neg h3]
          by_cases h4 : mapTag.isPrefixOf l = true
          · rw [if_pos h4, rewriteLines_nil]
            have hx : (processMapLine cfg base l).head? = some '#' := by
              rw [processMapLine_eq_key]
              exact replaceUriAttr_head _ hlhead (by decide)
            simp [List.filter_cons, isPrefixOf_head_ne hpx hx (by decide), segmentUris]
          · rw [if_neg h4, if_neg (ne_true_of_eq_false hnext),
              if_neg (show ¬ ((false : Bool) = true ∧ ¬ hashTag.isPrefixOf l = true) from by
                rintro ⟨hff, _⟩
                exact absurd hff (by simp)),
              rewriteLines_nil]
            simp [List.filter_cons, isPrefixOf_head_ne hpx hlhead (by decide), segmentUris]
      | cons u rest =>
        obtain ⟨hut, hune⟩ := hstable u
          (List.mem_cons.mpr (Or.inr (List.mem_cons_self u rest)))
        have hstrest : ∀ l' ∈ rest, jsTrim l' = l' ∧ l' ≠ [] := fun l' h =>
          hstable l' (List.mem_cons.mpr (Or.inr (List.mem_cons.mpr (Or.inr h))))
        have hsturest : ∀ l' ∈ u :: rest, jsTrim l' = l' ∧ l' ≠ [] := fun l' h =>
          hstable l' (List.mem_cons.mpr (Or.inr h))
        have hgood2 : (if extinfTagRw.isPrefixOf l then
            !hashTag.isPrefixOf u && goodShape rest
          else hashTag.isPrefixOf l && goodShape (u :: rest)) = true := hgood
        have hsegeq : segmentUris (l :: u :: rest) =
            (if extinfTagRw.isPrefixOf l then u :: segmentUris rest
             else segmentUris (u :: rest)) := rfl
        have hlen2 : rest.length ≤ n := by
          simp only [List.length_cons] at hlen
          omega
        have hlenu : (u :: rest).length ≤ n := by
          simp only [List.length_cons] at hlen ⊢
          omega
        rw [rewriteLines_cons cfg base l (u :: rest) false, hlt,
          if_neg (by simp [List.isEmpty_iff, hlne]),
          if_neg (hdisc l)]
        by_cases hext : extinfTagRw.isPrefixOf l = true
        · rw [if_pos hext] at hgood2
          rw [Bool.and_eq_true, Bool.not_eq_true'] at hgood2
          obtain ⟨hnu, hgr⟩ := hgood2
          have hlhead : l.head? = some '#' := by
            cases l with
            | nil => exact absurd rfl hlne
            | cons a t =>
              have ha := head_eq_of_tag (show extinfTagRw.head? = some '#' from by decide)
                hext (show (a :: t).head? = some a from rfl)
              rw [List.head?_cons, ha]
          obtain ⟨a, t, hat⟩ := List.exists_cons_of_ne_nil hune
          have hane : a ≠ '#' := by
            intro he
            rw [hat, he] at hnu
            have : hashTag.isPrefixOf ('#' :: t) = true := by
              rw [show hashTag = [ '#' ] from by decide]
              simp [List.isPrefixOf]
            rw [this] at hnu
            exact absurd hnu (by simp)
          have huhead : u.head? = some a := by
            rw [hat]
            rfl
          rw [if_neg (ne_true_of_eq_false
              (@isPrefixOf_excl extinfTagRw keyTag l hext (by decide) (by decide))),
            if_neg (ne_true_of_eq_false
              (@isPrefixOf_excl extinfTagRw mapTag l hext (by decide) (by decide))),
            if_pos hext]
          rw [rewriteLines_cons cfg base u rest true, hut,
            if_neg (by simp [List.isEmpty_iff, hune]),
            if_neg (hdisc u),
            if_neg (ne_true_of_eq_false (isPrefixOf_head_ne
              (show keyTag.head? = some '#' from by decide) huhead (Ne.symm hane))),
            if_neg (ne_true_of_eq_false (isPrefixOf_head_ne
              (show mapTag.head? = some '#' from by decide) huhead (Ne.symm hane))),
            if_neg (ne_true_of_eq_false (isPrefixOf_head_ne
              (show extinfTagRw.head? = some '#' from by decide) huhead (Ne.symm hane))),
            if_pos (⟨rfl, by rw [hat] at hnu ⊢; simp [hnu]⟩ :
              (true : Bool) = true ∧ ¬ hashTag.isPrefixOf u = true)]
          obtain ⟨z, hz⟩ := proxyTsUrl_shape cfg hpne (resolveUrl base u)
          rw [List.filter_cons, List.filter_cons]
          rw [isPrefixOf_head_ne hpx hlhead (by decide)]
          rw [hz, isPrefixOf_append_self]
          simp only [Bool.false_eq_true, if_false, if_pos rfl]
          rw [← hz, ihn rest hlen2 hstrest hgr, hsegeq, if_pos hext]
          rfl
        · rw [if_neg hext] at hgood2
          rw [Bool.and_eq_true] at hgood2
          obtain ⟨hhash, hgur⟩ := hgood2
          have hlhead : l.head? = some '#' := by
            cases l with
            | nil => exact absurd rfl hlne
            | cons a t =>
              have ha := head_eq_of_tag (show hashTag.head? = some '#' from by decide)
                hhash (show (a :: t).head? = some a from rfl)
              rw [List.head?_cons, ha]
          rw [hsegeq, if_neg hext]
          by_cases h3 : keyTag.isPrefixOf l = true
          · rw [if_pos h3]
            have hx : (processKeyLine cfg base l).head? = some '#' :=
              replaceUriAttr_head _ hlhead (by decide)
            rw [List.filter_cons, isPrefixOf_head_ne hpx hx (by decide)]
            simp only [Bool.false_eq_true, if_false]
            rw [if_neg hext]
            exact ihn (u :: rest) hlenu hsturest hgur
          · rw [if_neg h3]
            by_cases h4 : mapTag.isPrefixOf l = true
            · rw [if_pos h4]
              have hx : (processMapLine cfg base l).head? = some '#' := by
                rw [processMapLine_eq_key]
                exact replaceUriAttr_head _ hlhead (by decide)
              rw [List.filter_cons, isPrefixOf_head_ne hpx hx (by decide)]
              simp only [Bool.false_eq_true, if_false]
              rw [if_neg hext]
              exact ihn (u :: rest) hlenu hsturest hgur
            · rw [if_neg h4, if_neg hext,
                if_neg (show ¬ ((false : Bool) = true ∧ ¬ hashTag.isPrefixOf l = true) from by
                  rintro ⟨hff, _⟩
                  exact absurd hff (by simp))]
              rw [List.filter_cons, isPrefixOf_head_ne hpx hlhead (by decide)]
              simp only [Bool.false_eq_true, if_false]
              exact ihn (u :: rest) hlenu hsturest hgur

/-- Claim C5: for a playlist whose trimmed non-empty lines are well shaped
(every duration tag followed by a non-comment URI line), with discontinuity
filtering disabled, a newline-free segment proxy starting with "h" and a
parsable playlist URL, the proxy-prefixed lines of the rewritten output are
exactly the wrapped resolved segment URIs of the source, in order — in
particular there are exactly as many as source segments. -/
theorem c5_segment_count (cfg : Config) (url content : List Char)
    (hd : cfg.filterDiscontinuity = false)
    (hpx : cfg.proxyTs.head? = some 'h')
    (hnl : cfg.proxyTs.all (fun c => c ≠ '\n') = true)
    {p : Url} (hurl : parseUrl url = some p)
    (hgood : goodShape (cleanLines (splitChar '\n' content)) = true) :
    (splitChar '\n' (processMediaPlaylist cfg url content)).filter
        (fun x => cfg.proxyTs.isPrefixOf x) =
      (segmentUris (cleanLines (splitChar '\n' content))).map
        (fun u => proxyTsUrl cfg (resolveUrl (getBaseUrl url) u)) := by
  have hb := getBaseUrl_parses hurl
  have hstable : ∀ l ∈ cleanLines (splitChar '\n' content), jsTrim l = l ∧ l ≠ [] := by
    intro l hl
    unfold cleanLines at hl
    rw [List.mem_filter] at hl
    obtain ⟨hl1, hl2⟩ := hl
    rw [List.mem_map] at hl1
    obtain ⟨l0, _, hl0⟩ := hl1
    constructor
    · rw [← hl0]
      exact jsTrim_idem l0
    · intro h0
      rw [h0] at hl2
      simp at hl2
  have hmain := rewrite_filter_map cfg (getBaseUrl url) hd hpx
    (cleanLines (splitChar '\n' content)) hstable hgood
  rw [rewriteLines_clean cfg (getBaseUrl url) (splitChar '\n' content) false] at hmain
  unfold processMediaPlaylist
  cases hone : rewriteLines cfg (getBaseUrl url) (splitChar '\n' content) false with
  | nil =>
    rw [hone, List.filter_nil] at hmain
    rw [← hmain]
    have hnil : cfg.proxyTs.isPrefixOf ([] : List Char) = false := by
      cases hp : cfg.proxyTs with
      | nil =>
        rw [hp] at hpx
        simp at hpx
      | cons a t => rfl
    show (splitChar '\n' (joinChar '\n' ([] : List (List Char)))).filter
      (fun x => cfg.proxyTs.isPrefixOf x) = []
    rw [show splitChar '\n' (joinChar '\n' ([] : List (List Char))) =
      [[]] from rfl, List.filter_cons, hnil]
    rfl
  | cons o1 os =>
    have hprops : ∀ x ∈ (o1 :: os : List (List Char)),
        x ≠ [] ∧ x.all (fun c => c ≠ '\n') = true := by
      intro x hx
      rw [← hone] at hx
      exact rewriteLines_mem cfg hb hnl (splitChar '\n' content) false x
        (mem_splitChar_no_sep '\n' content) hx
    have hrt : splitChar '\n' (joinChar '\n' (o1 :: os)) = o1 :: os :=
      splitChar_joinChar '\n' (o1 :: os) (List.cons_ne_nil o1 os)
        (fun l hl => (hprops l hl).2)
    rw [hrt, ← hone]
    exact hmain

/-- Witness for claim C5 at a concrete two-segment playlist: the hypotheses
hold and the output contains exactly the two wrapped segment URIs in
order. -/
theorem c5_segment_count_witness :
    c5Cfg.filterDiscontinuity = false ∧
    goodShape (cleanLines (splitChar '\n' c5Content)) = true ∧
    (splitChar '\n' (processMediaPlaylist c5Cfg c5Url c5Content)).filter
        (fun x => c5Cfg.proxyTs.isPrefixOf x) =
      (segmentUris (cleanLines (splitChar '\n' c5Content))).map
        (fun u => proxyTsUrl c5Cfg (resolveUrl (getBaseUrl c5Url) u)) :=
  ⟨rfl, by decide, @c5_segment_count c5Cfg c5Url c5Content rfl rfl (by decide)
    ⟨true, chars ("cdn.example.com"), chars ("/live/index.m3u8")⟩ (by decide) (by decide)⟩

end M3U8Filter
